import Mathlib

/-!
# A unary-encoded Turing machine interpreter

Shallow embedding of `src/tape.go` and `src/turing_machine.go`.

* A Go `string` is a Lean `String` (a sequence of Unicode scalar values, i.e. a
  valid UTF-8 string); `len(s)` is the UTF-8 byte length `String.utf8ByteSize`.
* A Go `[]string` is a `List String`, a Go `int` head position is an `Int`.
* The Go `map[string][]string` is an association list with unique keys;
  assignment `m[k] = v` is `Table.set`, lookup `m[k]` is `List.lookup`.
* `Step` returns `none` exactly where the Go code would index a table entry
  out of range.
-/

namespace TuringGoedel

/-! ## Tape (`src/tape.go`) -/

/-- The tape: the materialised cells and the index of the head. -/
structure Tape where
  content : List String
  headPosition : Int
deriving DecidableEq

/-- Constructor `NewTape`: an empty content is replaced by a single blank cell. -/
def NewTape (content : List String) : Tape :=
  if content.length = 0 then { content := ["_"], headPosition := 0 }
  else { content := content, headPosition := 0 }

/-- Method `Tape.Read`: the symbol under the head, blank outside the materialised cells. -/
def Tape.Read (t : Tape) : String :=
  if t.headPosition < 0 ∨ t.headPosition ≥ t.content.length then "_"
  else t.content.getD t.headPosition.toNat "_"

/-- The loop `for t.headPosition >= len(t.content) { t.content = append(t.content, "_") }`,
run for at most `fuel` iterations. -/
def Tape.growRight : Nat → Tape → Tape
  | 0, t => t
  | fuel + 1, t =>
    if t.headPosition ≥ t.content.length then
      Tape.growRight fuel { t with content := t.content ++ ["_"] }
    else t

/-- The loop `for t.headPosition < 0 { t.content = append([]string{"_"}, t.content...);
t.headPosition = 0 }`, run for at most `fuel` iterations. -/
def Tape.growLeft : Nat → Tape → Tape
  | 0, t => t
  | fuel + 1, t =>
    if t.headPosition < 0 then
      Tape.growLeft fuel { content := "_" :: t.content, headPosition := 0 }
    else t

/-- Method `Tape.Write`: both expansion loops (the first needs at most
`headPosition + 1 - len(content)` iterations, the second at most one), then the
assignment `t.content[t.headPosition] = symbol`. -/
def Tape.Write (t : Tape) (symbol : String) : Tape :=
  let t1 := Tape.growRight (t.headPosition + 1 - t.content.length).toNat t
  let t2 := Tape.growLeft 1 t1
  { t2 with content := t2.content.set t2.headPosition.toNat symbol }

/-- Method `Tape.MoveLeft`: decrement the head; below index 0, prepend a blank and
reset the head to 0. -/
def Tape.MoveLeft (t : Tape) : Tape :=
  let headPosition := t.headPosition - 1
  if headPosition < 0 then { content := "_" :: t.content, headPosition := 0 }
  else { t with headPosition := headPosition }

/-- Method `Tape.MoveRight`: increment the head; past the last cell, append a blank. -/
def Tape.MoveRight (t : Tape) : Tape :=
  let headPosition := t.headPosition + 1
  if headPosition ≥ t.content.length then
    { content := t.content ++ ["_"], headPosition := headPosition }
  else { t with headPosition := headPosition }

/-- The symbol stored at slice index `i`, blank outside the materialised cells
(the bounds-checked cell read of `Tape.Read`, at an arbitrary index). -/
def Tape.cellAt (t : Tape) (i : Int) : String :=
  if i < 0 ∨ i ≥ t.content.length then "_" else t.content.getD i.toNat "_"

/-- The representation invariant of the tape: the head is on a materialised cell. -/
def Tape.Valid (t : Tape) : Prop :=
  0 ≤ t.headPosition ∧ t.headPosition < t.content.length

instance (t : Tape) : Decidable t.Valid := by
  unfold Tape.Valid; exact inferInstance

/-! ## The transition table -/

/-- The Go `map[string][]string`, as an association list with unique keys. -/
abbrev Table := List (String × List String)

/-- The map assignment `m[key] = value`: any earlier entry for `key` is replaced. -/
def Table.set (m : Table) (key : String) (value : List String) : Table :=
  m.filter (fun e => e.1 != key) ++ [(key, value)]

/-! ## The machine (`src/turing_machine.go`) -/

/-- The machine: tape, transition table, current state and the finished flag. -/
structure TuringMachine where
  tape : Tape
  transitions : Table
  currentState : String
  isFinished : Bool
deriving DecidableEq

/-- Method `TuringMachine.Step`. The result is `none` exactly when one of the index
expressions `transition[0]`, `transition[1]`, `transition[2]` is out of range. -/
def TuringMachine.Step (tm : TuringMachine) : Option TuringMachine :=
  if tm.isFinished then some tm
  else
    let key := tm.currentState ++ "," ++ tm.tape.Read
    match tm.transitions.lookup key with
    | none => some { tm with isFinished := true }
    | some transition =>
      match transition[0]?, transition[1]?, transition[2]? with
      | some toState, some writeSymbol, some move =>
        let tape := tm.tape.Write writeSymbol
        let tape :=
          if move = "L" then tape.MoveLeft
          else if move = "R" then tape.MoveRight
          else tape
        some { tm with tape := tape, currentState := toState }
      | _, _, _ => none

/-- Method `TuringMachine.IsAccepting`: the current state is `q2`. -/
def TuringMachine.IsAccepting (tm : TuringMachine) : Bool :=
  tm.currentState == "q2"

/-- The result of `n` successive `Step` calls. -/
def TuringMachine.StepN : Nat → TuringMachine → Option TuringMachine
  | 0, tm => some tm
  | n + 1, tm => (tm.Step).bind (TuringMachine.StepN n)

/-! ## The Go library functions used by the parser -/

/-- Go `strconv.Itoa` on a non-negative argument: the decimal numeral. -/
def Itoa (n : Nat) : String := Nat.repr n

/-- Go `strings.Index` followed by the two slicings `s[:m]` and `s[m+len(sep):]`:
the text before and after the first occurrence of `sep`, or `none` when `sep`
does not occur. -/
def cutFirst (sep : List Char) : List Char → Option (List Char × List Char)
  | [] => if sep = [] then some ([], []) else none
  | c :: s =>
    if sep <+: c :: s then some ([], (c :: s).drop sep.length)
    else (cutFirst sep s).map (fun p => (c :: p.1, p.2))

/-- The loop of `strings.genSplit`: cut at most `k` times at the first
occurrence of `sep`; the last piece is the unsplit remainder. -/
def splitLoop (sep : List Char) : Nat → List Char → List (List Char)
  | 0, s => [s]
  | k + 1, s =>
    match cutFirst sep s with
    | none => [s]
    | some (a, b) => a :: splitLoop sep k b

/-- Go `strings.Split(s, "")`: one string per character. -/
def explode (s : String) : List String := s.data.map Char.toString

/-- Go `strings.SplitN(s, sep, n)` for a non-empty `sep`: at most `n` pieces. -/
def SplitN (s sep : String) (n : Nat) : List String :=
  if n = 0 then []
  else (splitLoop sep.data (n - 1) s.data).map String.mk

/-- Go `strings.Split(s, sep)`: all pieces (at most `len(s) + 1` of them, as in
`genSplit`); an empty `sep` splits into characters. -/
def Split (s sep : String) : List String :=
  if sep = "" then explode s
  else (splitLoop sep.data s.data.length s.data).map String.mk

/-! ## The encoding parser (`NewTuringMachine`) -/

/-- Helper `parseState`: `q` followed by the decimal length of the field. -/
def parseState (unaryCode : String) : String :=
  "q" ++ Itoa unaryCode.utf8ByteSize

/-- Helper `parseSymbol`: the `switch` on `len(unaryCode)`. -/
def parseSymbol (unaryCode : String) : String :=
  if unaryCode.utf8ByteSize = 1 then "0"
  else if unaryCode.utf8ByteSize = 2 then "1"
  else if unaryCode.utf8ByteSize = 3 then "_"
  else Itoa unaryCode.utf8ByteSize

/-- Helper `parseMove`: the literal content of the field decides the move. -/
def parseMove (unaryCode : String) : String :=
  if unaryCode = "0" then "L"
  else if unaryCode = "00" then "R"
  else "X"

/-- The local `parts` of the loop body: `strings.SplitN(transition, "1", 5)`. -/
def partsOf (transition : String) : List String := SplitN transition "1" 5

/-- The local `fromState` of the loop body. -/
def fromStateOf (transition : String) : String := parseState ((partsOf transition).getD 0 "")

/-- The local `readSymbol` of the loop body. -/
def readSymbolOf (transition : String) : String := parseSymbol ((partsOf transition).getD 1 "")

/-- The local `toState` of the loop body. -/
def toStateOf (transition : String) : String := parseState ((partsOf transition).getD 2 "")

/-- The local `writeSymbol` of the loop body. -/
def writeSymbolOf (transition : String) : String := parseSymbol ((partsOf transition).getD 3 "")

/-- The local `move` of the loop body. -/
def moveOf (transition : String) : String := parseMove ((partsOf transition).getD 4 "")

/-- The local `key` of the loop body. -/
def keyOf (transition : String) : String := fromStateOf transition ++ "," ++ readSymbolOf transition

/-- One iteration of the loop over `transitionParts`: the table after the
record `transition` has been handled (both `continue` branches leave it as it is). -/
def addTransition (transitions : Table) (transition : String) : Table :=
  if transition = "" then transitions
  else if (partsOf transition).length ≠ 5 then transitions
  else
    transitions.set (keyOf transition)
      [toStateOf transition, writeSymbolOf transition, moveOf transition]

/-- The local `programPart` of `NewTuringMachine`: `parts[0]`. -/
def programPart (sequence : String) : String :=
  (SplitN sequence "111" 2).getD 0 ""

/-- The local `tapePart` of `NewTuringMachine`: `parts[1]` if there is one. -/
def tapePart (sequence : String) : String :=
  let parts := SplitN sequence "111" 2
  if parts.length > 1 then parts.getD 1 "" else ""

/-- The table built by the loop of `NewTuringMachine` from the program part. -/
def buildTransitions (programPart : String) : Table :=
  (Split programPart "11").foldl addTransition []

/-- Constructor `NewTuringMachine`: split the sequence at the first `111`, build the
tape from the tape part and the table from the program part; start in `q1`. -/
def NewTuringMachine (sequence : String) : TuringMachine :=
  let tapeContent := Split (tapePart sequence) ""
  let tape := NewTape tapeContent
  let transitions := buildTransitions (programPart sequence)
  { tape := tape, transitions := transitions, currentState := "q1", isFinished := false }

/-- The built-in default sequence of `initTM` (`src/ui.go`). -/
def defaultSequence : String :=
  "01010101001101001010010011010001000100010110001001000101011000100010010010110001010010010111111100"

/-! ## Call sequences on a tape, and the ideal tape they are compared with -/

/-- One call of a mutating `Tape` method. -/
inductive TapeOp where
  | write (symbol : String)
  | moveLeft
  | moveRight
deriving DecidableEq

/-- The tape after one call. -/
def Tape.apply (t : Tape) : TapeOp → Tape
  | TapeOp.write symbol => t.Write symbol
  | TapeOp.moveLeft => t.MoveLeft
  | TapeOp.moveRight => t.MoveRight

/-- The tape after a sequence of calls, first call first. -/
def Tape.run (t : Tape) (ops : List TapeOp) : Tape := ops.foldl Tape.apply t

/-- The absolute position after a sequence of calls: the number of `MoveRight`
calls minus the number of `MoveLeft` calls. -/
def absPosition (ops : List TapeOp) : Int :=
  (ops.count TapeOp.moveRight : Int) - (ops.count TapeOp.moveLeft : Int)

/-- The ideal tape of the specification: a symbol for every integer position,
and the position of the head. -/
structure IdealTape where
  cells : Int → String
  position : Int

/-- The ideal tape holding `content` at positions `0 .. len(content) - 1` and
blanks everywhere else, head at position 0. -/
def IdealTape.init (content : List String) : IdealTape :=
  { cells := fun p => if 0 ≤ p ∧ p < content.length then content.getD p.toNat "_" else "_",
    position := 0 }

/-- The ideal tape after one call. -/
def IdealTape.apply (t : IdealTape) : TapeOp → IdealTape
  | TapeOp.write symbol =>
    { t with cells := fun p => if p = t.position then symbol else t.cells p }
  | TapeOp.moveLeft => { t with position := t.position - 1 }
  | TapeOp.moveRight => { t with position := t.position + 1 }

/-- The ideal tape after a sequence of calls. -/
def IdealTape.run (t : IdealTape) (ops : List TapeOp) : IdealTape :=
  ops.foldl IdealTape.apply t

/-- The symbol under the head of the ideal tape. -/
def IdealTape.read (t : IdealTape) : String := t.cells t.position

/-! ## The driver (`src/ui.go`) -/

/-- Go `int` arithmetic on a 64-bit platform: the result wrapped into the
signed 64-bit range. -/
def wrapInt64 (x : Int) : Int :=
  (x + 9223372036854775808) % 18446744073709551616 - 9223372036854775808

/-- The fields of the driver `Model` that the `stepMsg` case of `Update` reads
or writes; `tm` is `none` for the nil pointer. The widgets of the presentation
layer are left out. -/
structure Model where
  tm : Option TuringMachine
  state : String
  stepByStep : Bool
  stepCount : Int
  maxSteps : Int
deriving DecidableEq

/-- The `case stepMsg:` branch of `Model.Update`: the model it returns (the
returned command is left out). The result is `none` exactly when the `Step`
call indexes a table entry out of range. `maxSteps` is decremented only when
positive, so it cannot wrap. -/
def Model.UpdateStepMsg (m : Model) : Option Model :=
  match m.tm with
  | none => some m
  | some tm =>
    if tm.isFinished = false ∧ m.maxSteps > 0 then
      match tm.Step with
      | none => none
      | some tm1 =>
        let m1 : Model :=
          { m with stepCount := wrapInt64 (m.stepCount + 1),
                   maxSteps := m.maxSteps - 1,
                   tm := some tm1 }
        if tm1.isFinished = true ∨ m1.maxSteps = 0 then some { m1 with state := "finished" }
        else some m1
    else some m

/-- The model after `k` successive `stepMsg` messages. -/
def Model.UpdateN : Nat → Model → Option Model
  | 0, m => some m
  | k + 1, m => (m.UpdateStepMsg).bind (Model.UpdateN k)

/-! ## Tape lemmas -/

theorem Tape.cellAt_eq (t : Tape) (i : Int) :
    t.cellAt i = if i < 0 then "_" else (t.content[i.toNat]?).getD "_" := by
  unfold Tape.cellAt
  by_cases h0 : i < 0
  · simp [h0]
  · by_cases h1 : i ≥ t.content.length
    · have : t.content.length ≤ i.toNat := by omega
      simp [h0, h1, List.getElem?_eq_none this]
    · simp [h0, h1]

theorem Tape.Read_eq_cellAt (t : Tape) : t.Read = t.cellAt t.headPosition := rfl

theorem Tape.growRight_eq (fuel : Nat) (t : Tape) :
    Tape.growRight fuel t =
      { t with content := t.content ++
          List.replicate (min fuel (t.headPosition + 1 - t.content.length).toNat) "_" } := by
  induction fuel generalizing t with
  | zero => simp [Tape.growRight]
  | succ n ih =>
    unfold Tape.growRight
    by_cases h : t.headPosition ≥ t.content.length
    · rw [if_pos h, ih]
      have e : min (n + 1) (t.headPosition + 1 - t.content.length).toNat
          = 1 + min n (t.headPosition + 1 - (t.content.length + 1 : Nat)).toNat := by
        omega
      simp only [List.length_append, List.length_singleton, e, List.replicate_add,
        List.replicate_one, List.append_assoc]
    · rw [if_neg h]
      have e : (t.headPosition + 1 - t.content.length).toNat = 0 := by omega
      simp [e]

theorem getElem?_append_blanks (l : List String) (k n : Nat) :
    ((l ++ List.replicate k "_")[n]?).getD "_" = (l[n]?).getD "_" := by
  by_cases h : n < l.length
  · rw [List.getElem?_append_left h]
  · have h1 : l.length ≤ n := by omega
    rw [List.getElem?_append_right h1, List.getElem?_eq_none h1]
    simp only [List.getElem?_replicate]
    split <;> rfl

/-- Writing at a head index of at least `-1`: relative to the head, only the
cell under the head changes. -/
theorem Tape.Write_cellAt (t : Tape) (w : String) (h : -1 ≤ t.headPosition) (j : Int) :
    (t.Write w).cellAt ((t.Write w).headPosition + j)
      = if j = 0 then w else t.cellAt (t.headPosition + j) := by
  have e1 : Tape.growLeft 1 (Tape.growRight (t.headPosition + 1 - t.content.length).toNat t)
      = if t.headPosition < 0 then { content := "_" :: t.content, headPosition := 0 }
        else { t with content := t.content ++
          List.replicate (t.headPosition + 1 - t.content.length).toNat "_" } := by
    rw [Tape.growRight_eq]
    simp only [Tape.growLeft, min_self]
    by_cases h0 : t.headPosition < 0
    · have : (t.headPosition + 1 - t.content.length).toNat = 0 := by omega
      simp [h0, this]
    · simp [h0]
  unfold Tape.Write
  simp only [e1]
  rw [Tape.cellAt_eq, Tape.cellAt_eq]
  by_cases h0 : t.headPosition < 0
  · have hh : t.headPosition = -1 := by omega
    simp only [h0, if_true, hh]
    by_cases hj : j = 0
    · subst hj; simp
    · by_cases hj0 : j < 0
      · have : -1 + j < 0 := by omega
        simp [hj, hj0, this]
      · obtain ⟨m, rfl⟩ : ∃ m : Nat, j = m + 1 := ⟨(j - 1).toNat, by omega⟩
        have e2 : ((0 : Int) + (m + 1 : Int)).toNat = m + 1 := by omega
        have e3 : ((-1 : Int) + (m + 1 : Int)).toNat = m := by omega
        have e4 : ¬ ((0 : Int) + (m + 1 : Int) < 0) := by omega
        have e5 : ¬ ((-1 : Int) + (m + 1 : Int) < 0) := by omega
        simp only [e2, e3, e4, e5, hj, if_false]
        simp
        intro hx
        omega
  · simp only [h0, if_false]
    by_cases hj : j = 0
    · subst hj
      have : t.headPosition.toNat < (t.content ++
          List.replicate (t.headPosition + 1 - t.content.length).toNat "_").length := by
        simp; omega
      simp only [add_zero, if_true]
      rw [List.getElem?_set_self this]
      simp [h0]
    · by_cases hj0 : t.headPosition + j < 0
      · simp [hj, hj0]
      · have hne : t.headPosition.toNat ≠ (t.headPosition + j).toNat := by omega
        simp only [hj, hj0, if_false]
        rw [List.getElem?_set_ne hne, getElem?_append_blanks]

/-- Moving left from a non-negative head index shifts the head by one cell and
changes no cell. -/
theorem Tape.MoveLeft_cellAt (t : Tape) (h : 0 ≤ t.headPosition) (j : Int) :
    t.MoveLeft.cellAt (t.MoveLeft.headPosition + j) = t.cellAt (t.headPosition - 1 + j) := by
  unfold Tape.MoveLeft
  by_cases h0 : t.headPosition - 1 < 0
  · have hh : t.headPosition = 0 := by omega
    have hlt : (0 : Int) - 1 < 0 := by omega
    simp only [hh, hlt, if_true]
    rw [Tape.cellAt_eq, Tape.cellAt_eq]
    by_cases hj : j ≤ 0
    · by_cases hj0 : j = 0
      · subst hj0; simp
      · have a1 : (0 : Int) + j < 0 := by omega
        have a2 : (0 : Int) - 1 + j < 0 := by omega
        simp only [a1, a2, if_true]
    · obtain ⟨m, rfl⟩ : ∃ m : Nat, j = m + 1 := ⟨(j - 1).toNat, by omega⟩
      have e2 : ((0 : Int) + (m + 1 : Int)).toNat = m + 1 := by omega
      have e3 : ((0 : Int) - 1 + (m + 1 : Int)).toNat = m := by omega
      have e4 : ¬ ((0 : Int) + (m + 1 : Int) < 0) := by omega
      have e5 : ¬ ((0 : Int) - 1 + (m + 1 : Int) < 0) := by omega
      simp only [e2, e3, e4, e5, if_false]
      simp
  · simp only [h0, if_false]
    rfl

/-- Moving right shifts the head by one cell and changes no cell. -/
theorem Tape.MoveRight_cellAt (t : Tape) (j : Int) :
    t.MoveRight.cellAt (t.MoveRight.headPosition + j) = t.cellAt (t.headPosition + 1 + j) := by
  unfold Tape.MoveRight
  by_cases h0 : t.headPosition + 1 ≥ t.content.length
  · simp only [h0, if_true]
    rw [Tape.cellAt_eq, Tape.cellAt_eq]
    have := getElem?_append_blanks t.content 1 (t.headPosition + 1 + j).toNat
    simp only [List.replicate_one] at this
    rw [this]
  · simp only [h0, if_false]
    rfl

theorem Tape.Write_headPosition (t : Tape) (w : String) :
    (t.Write w).headPosition = max t.headPosition 0 := by
  unfold Tape.Write
  rw [Tape.growRight_eq]
  by_cases h0 : t.headPosition < 0
  · simp [Tape.growLeft, h0]; omega
  · simp [Tape.growLeft, h0]; omega

theorem Tape.Write_valid (t : Tape) (w : String) : (t.Write w).Valid := by
  unfold Tape.Valid Tape.Write
  rw [Tape.growRight_eq]
  by_cases h0 : t.headPosition < 0
  · simp [Tape.growLeft, h0]; omega
  · simp [Tape.growLeft, h0]; omega

theorem Tape.MoveLeft_valid (t : Tape) (h : t.Valid) : t.MoveLeft.Valid := by
  unfold Tape.Valid at *
  unfold Tape.MoveLeft
  by_cases h0 : t.headPosition - 1 < 0
  · simp [h0]
  · simp [h0]; omega

theorem Tape.MoveRight_valid (t : Tape) (h : t.Valid) : t.MoveRight.Valid := by
  unfold Tape.Valid at *
  unfold Tape.MoveRight
  by_cases h0 : t.headPosition + 1 ≥ t.content.length
  · simp [h0]; omega
  · simp [h0]; omega

theorem NewTape_valid (content : List String) : (NewTape content).Valid := by
  unfold Tape.Valid NewTape
  by_cases h0 : content.length = 0
  · simp [h0]
  · simp [h0]; omega

theorem Tape.Write_of_valid (t : Tape) (w : String) (h : t.Valid) :
    t.Write w = { content := t.content.set t.headPosition.toNat w,
                  headPosition := t.headPosition } := by
  unfold Tape.Valid at h
  unfold Tape.Write
  rw [Tape.growRight_eq]
  have e : (t.headPosition + 1 - t.content.length).toNat = 0 := by omega
  have h0 : ¬ t.headPosition < 0 := by omega
  simp [Tape.growLeft, h0, e]

/-! ## Machine lemmas -/

theorem TuringMachine.Step_finished (tm : TuringMachine) (h : tm.isFinished = true) :
    tm.Step = some tm := by
  unfold TuringMachine.Step
  simp [h]

theorem TuringMachine.StepN_finished (n : Nat) (tm : TuringMachine)
    (h : tm.isFinished = true) : TuringMachine.StepN n tm = some tm := by
  induction n with
  | zero => rfl
  | succ k ih => simp [TuringMachine.StepN, TuringMachine.Step_finished tm h, ih]

theorem TuringMachine.StepN_add (m k : Nat) (tm : TuringMachine) :
    TuringMachine.StepN (m + k) tm = (TuringMachine.StepN m tm).bind (TuringMachine.StepN k) := by
  induction m generalizing tm with
  | zero => simp [TuringMachine.StepN]
  | succ m ih =>
    rw [Nat.add_right_comm]
    simp only [TuringMachine.StepN]
    cases hs : tm.Step with
    | none => rfl
    | some tm1 => simp [ih]

theorem TuringMachine.Step_entry (tm : TuringMachine) (toState writeSymbol move : String)
    (hfin : tm.isFinished = false)
    (hentry : tm.transitions.lookup (tm.currentState ++ "," ++ tm.tape.Read)
      = some [toState, writeSymbol, move]) :
    tm.Step = some { tm with
      tape := if move = "L" then (tm.tape.Write writeSymbol).MoveLeft
              else if move = "R" then (tm.tape.Write writeSymbol).MoveRight
              else tm.tape.Write writeSymbol,
      currentState := toState } := by
  unfold TuringMachine.Step
  simp [hfin, hentry]

theorem TuringMachine.Step_valid (tm tm1 : TuringMachine) (h : tm.tape.Valid)
    (hs : tm.Step = some tm1) : tm1.tape.Valid := by
  unfold TuringMachine.Step at hs
  by_cases hfin : tm.isFinished = true
  · simp [hfin] at hs; subst hs; exact h
  · simp only [hfin] at hs
    cases hl : tm.transitions.lookup (tm.currentState ++ "," ++ tm.tape.Read) with
    | none => simp [hl] at hs; subst hs; exact h
    | some tr =>
      simp only [hl] at hs
      rcases tr with _ | ⟨toState, _ | ⟨writeSymbol, _ | ⟨move, rest⟩⟩⟩
      · simp at hs
      · simp at hs
      · simp at hs
      · simp at hs
        subst hs
        have hw := Tape.Write_valid tm.tape writeSymbol
        by_cases hL : move = "L"
        · simp only [hL, if_true]; exact Tape.MoveLeft_valid _ hw
        · by_cases hR : move = "R"
          · simp only [hL, hR, if_true, if_false]; exact Tape.MoveRight_valid _ hw
          · simp only [hL, hR, if_false]; exact hw

theorem TuringMachine.StepN_valid (n : Nat) (tm tm1 : TuringMachine) (h : tm.tape.Valid)
    (hs : TuringMachine.StepN n tm = some tm1) : tm1.tape.Valid := by
  induction n generalizing tm with
  | zero => simp [TuringMachine.StepN] at hs; subst hs; exact h
  | succ k ih =>
    simp only [TuringMachine.StepN] at hs
    cases hst : tm.Step with
    | none => simp [hst] at hs
    | some tm2 =>
      simp [hst] at hs
      exact ih tm2 (TuringMachine.Step_valid tm tm2 h hst) hs

theorem NewTuringMachine_valid (sequence : String) : (NewTuringMachine sequence).tape.Valid :=
  NewTape_valid _

/-! ## Claims about `Step` -/

/-- C1: on a machine that is not finished, whose tape has its head on a
materialised cell, and whose table maps `(currentState, tape.Read())` to
`(toState, writeSymbol, move)` with `move` equal to `"L"` or `"R"`, `Step`
returns a machine whose state is `toState`, which is still not finished, whose
table is unchanged and whose tape, seen from the new head, is the old tape with
`writeSymbol` in the cell that was under the head: for `"L"` the written cell is
one cell to the right of the new head (offset `1`), for `"R"` one cell to its
left (offset `-1`), and every other cell, read blank where not materialised,
holds what it held before. -/
theorem step_writes_and_moves (tm : TuringMachine) (toState writeSymbol move : String)
    (hfin : tm.isFinished = false)
    (hentry : tm.transitions.lookup (tm.currentState ++ "," ++ tm.tape.Read)
      = some [toState, writeSymbol, move])
    (hmove : move = "L" ∨ move = "R")
    (hvalid : tm.tape.Valid) :
    ∃ tm1 : TuringMachine, tm.Step = some tm1 ∧ tm1.currentState = toState ∧
      tm1.isFinished = false ∧ tm1.transitions = tm.transitions ∧ tm1.tape.Valid ∧
      ∀ j : Int, tm1.tape.cellAt (tm1.tape.headPosition + j) =
        if move = "L" then
          (if j = 1 then writeSymbol else tm.tape.cellAt (tm.tape.headPosition - 1 + j))
        else
          (if j = -1 then writeSymbol else tm.tape.cellAt (tm.tape.headPosition + 1 + j)) := by
  refine ⟨_, TuringMachine.Step_entry tm toState writeSymbol move hfin hentry, rfl, hfin, rfl,
    ?_, ?_⟩
  · refine TuringMachine.Step_valid tm _ hvalid
      (TuringMachine.Step_entry tm toState writeSymbol move hfin hentry)
  · intro j
    have hneg : -1 ≤ tm.tape.headPosition := by
      have := hvalid.1
      omega
    have hw0 : 0 ≤ (tm.tape.Write writeSymbol).headPosition := (Tape.Write_valid _ _).1
    rcases hmove with hL | hR
    · subst hL
      simp only [if_true]
      rw [Tape.MoveLeft_cellAt _ hw0]
      have := Tape.Write_cellAt tm.tape writeSymbol hneg (-1 + j)
      rw [show (tm.tape.Write writeSymbol).headPosition - 1 + j
        = (tm.tape.Write writeSymbol).headPosition + (-1 + j) by ring, this]
      by_cases hj : j = 1
      · simp [hj]
      · have : ¬ (-1 + j = 0) := by omega
        simp only [this, hj, if_false]
        congr 1
        ring
    · subst hR
      have hne : ("R" : String) ≠ "L" := by decide
      simp only [hne, if_false, if_true]
      rw [Tape.MoveRight_cellAt]
      have := Tape.Write_cellAt tm.tape writeSymbol hneg (1 + j)
      rw [show (tm.tape.Write writeSymbol).headPosition + 1 + j
        = (tm.tape.Write writeSymbol).headPosition + (1 + j) by ring, this]
      by_cases hj : j = -1
      · simp [hj]
      · have : ¬ (1 + j = 0) := by omega
        simp only [this, hj, if_false]
        congr 1
        ring

/-- Witness for C1 on the default machine: the first step reads `1` in `q1`
and moves right. -/
theorem step_writes_and_moves_witness :
    (NewTuringMachine defaultSequence).isFinished = false ∧
    (NewTuringMachine defaultSequence).transitions.lookup
      ((NewTuringMachine defaultSequence).currentState ++ "," ++
        (NewTuringMachine defaultSequence).tape.Read) = some ["q1", "1", "R"] ∧
    (NewTuringMachine defaultSequence).tape.Valid ∧
    ∃ tm1 : TuringMachine, (NewTuringMachine defaultSequence).Step = some tm1 ∧
      tm1.currentState = "q1" ∧
      tm1.isFinished = false ∧ tm1.transitions = (NewTuringMachine defaultSequence).transitions ∧
      tm1.tape.Valid ∧
      ∀ j : Int, tm1.tape.cellAt (tm1.tape.headPosition + j) =
        if "R" = "L" then
          (if j = 1 then "1" else (NewTuringMachine defaultSequence).tape.cellAt
            ((NewTuringMachine defaultSequence).tape.headPosition - 1 + j))
        else
          (if j = -1 then "1" else (NewTuringMachine defaultSequence).tape.cellAt
            ((NewTuringMachine defaultSequence).tape.headPosition + 1 + j)) :=
  ⟨by decide, by decide, by decide,
    step_writes_and_moves (NewTuringMachine defaultSequence) "q1" "1" "R"
      (by decide) (by decide) (Or.inr rfl) (by decide)⟩

/-- C2: on a machine that is not finished and whose table has no entry for
`(currentState, tape.Read())`, `Step` sets `finished` and changes nothing else:
the state, the tape content, the head position and the table stay as they
were. -/
theorem step_halts_without_transition (tm : TuringMachine)
    (hfin : tm.isFinished = false)
    (hentry : tm.transitions.lookup (tm.currentState ++ "," ++ tm.tape.Read) = none) :
    tm.Step = some { tape := tm.tape, transitions := tm.transitions,
                     currentState := tm.currentState, isFinished := true } := by
  unfold TuringMachine.Step
  simp [hfin, hentry]

/-- Witness for C2: the machine of input `1110` has an empty table. -/
theorem step_halts_without_transition_witness :
    (NewTuringMachine "1110").isFinished = false ∧
    (NewTuringMachine "1110").transitions.lookup
      ((NewTuringMachine "1110").currentState ++ "," ++ (NewTuringMachine "1110").tape.Read)
      = none ∧
    (NewTuringMachine "1110").Step =
      some { tape := (NewTuringMachine "1110").tape,
             transitions := (NewTuringMachine "1110").transitions,
             currentState := (NewTuringMachine "1110").currentState, isFinished := true } :=
  ⟨by decide, by decide,
    step_halts_without_transition (NewTuringMachine "1110") (by decide) (by decide)⟩

/-- C3: halted is absorbing. On a finished machine `Step` returns the machine
unchanged (state, tape content, head position, table and flag); hence, for every
input and all `m ≤ n`, if this finished machine is the result of `m` Step calls
on the machine built from the input, it is also the result of `n` Step calls. -/
theorem halted_is_absorbing (tm : TuringMachine) (hfin : tm.isFinished = true) :
    tm.Step = some tm ∧
    ∀ (input : String) (m n : Nat), m ≤ n →
      TuringMachine.StepN m (NewTuringMachine input) = some tm →
      TuringMachine.StepN n (NewTuringMachine input) = some tm := by
  refine ⟨TuringMachine.Step_finished tm hfin, ?_⟩
  intro input m n hmn hm
  obtain ⟨k, rfl⟩ := Nat.exists_eq_add_of_le hmn
  rw [TuringMachine.StepN_add, hm]
  exact TuringMachine.StepN_finished k tm hfin

/-- Witness for C3: the machine of input `1110` after its first step. -/
theorem halted_is_absorbing_witness :
    ({ tape := { content := ["0"], headPosition := 0 }, transitions := [],
       currentState := "q1", isFinished := true } : TuringMachine).isFinished = true ∧
    TuringMachine.StepN 1 (NewTuringMachine "1110") =
      some { tape := { content := ["0"], headPosition := 0 }, transitions := [],
             currentState := "q1", isFinished := true } ∧
    TuringMachine.StepN 5 (NewTuringMachine "1110") =
      some { tape := { content := ["0"], headPosition := 0 }, transitions := [],
             currentState := "q1", isFinished := true } :=
  ⟨rfl, by decide,
    (halted_is_absorbing
      { tape := { content := ["0"], headPosition := 0 }, transitions := [],
        currentState := "q1", isFinished := true } rfl).2 "1110" 1 5 (by decide) (by decide)⟩

/-- C9: let `tm` be the machine built by `NewTuringMachine` from any input,
after any number of `Step` calls, and not finished. If its entry for
`(currentState, tape.Read())` is `(toState, writeSymbol, move)` with `move`
neither `"L"` nor `"R"`, then `Step` stores `writeSymbol` in the cell under the
head and sets the state to `toState`; the head position, the number of cells,
every other cell, the table and the finished flag (still false) are unchanged. -/
theorem step_invalid_move_keeps_head (input : String) (n : Nat) (tm : TuringMachine)
    (toState writeSymbol move : String)
    (hreach : TuringMachine.StepN n (NewTuringMachine input) = some tm)
    (hfin : tm.isFinished = false)
    (hentry : tm.transitions.lookup (tm.currentState ++ "," ++ tm.tape.Read)
      = some [toState, writeSymbol, move])
    (hL : move ≠ "L") (hR : move ≠ "R") :
    tm.Step = some
      { tape := { content := tm.tape.content.set tm.tape.headPosition.toNat writeSymbol,
                  headPosition := tm.tape.headPosition },
        transitions := tm.transitions,
        currentState := toState,
        isFinished := false } ∧
    0 ≤ tm.tape.headPosition ∧ tm.tape.headPosition < tm.tape.content.length := by
  have hvalid : tm.tape.Valid :=
    TuringMachine.StepN_valid n _ tm (NewTuringMachine_valid input) hreach
  refine ⟨?_, hvalid.1, hvalid.2⟩
  rw [TuringMachine.Step_entry tm toState writeSymbol move hfin hentry]
  simp only [hL, hR, if_false, Tape.Write_of_valid tm.tape writeSymbol hvalid, hfin]

/-- Witness for C9: a one-record program that writes `1` with move field `000`,
on tape `0`. -/
theorem step_invalid_move_keeps_head_witness :
    TuringMachine.StepN 0 (NewTuringMachine "0101010010001110") =
      some { tape := { content := ["0"], headPosition := 0 },
             transitions := [("q1,0", ["q1", "1", "X"])],
             currentState := "q1", isFinished := false } ∧
    ({ tape := { content := ["0"], headPosition := 0 },
       transitions := [("q1,0", ["q1", "1", "X"])],
       currentState := "q1", isFinished := false } : TuringMachine).Step =
      some { tape := { content := ["1"], headPosition := 0 },
             transitions := [("q1,0", ["q1", "1", "X"])],
             currentState := "q1", isFinished := false } :=
  ⟨by decide,
    (step_invalid_move_keeps_head "0101010010001110" 0
      { tape := { content := ["0"], headPosition := 0 },
        transitions := [("q1,0", ["q1", "1", "X"])],
        currentState := "q1", isFinished := false } "q1" "1" "X"
      (by decide) rfl (by decide) (by decide) (by decide)).1⟩

/-- C10: end to end on the built-in default sequence. The parser decodes six
transitions and the initial tape `1,1,1,1,0,0`; the machine is not finished after
8 Step calls and finished after 9; it is then in state `q2`, so `IsAccepting` is
true, the tape content is `1,1,1,1,0,1,_` and the head is at index 4. -/
theorem default_sequence_run :
    (NewTuringMachine defaultSequence).transitions =
      [("q1,0", ["q1", "0", "R"]), ("q1,1", ["q1", "1", "R"]), ("q1,_", ["q3", "_", "L"]),
       ("q3,1", ["q3", "0", "L"]), ("q3,_", ["q2", "1", "L"]), ("q3,0", ["q2", "1", "L"])] ∧
    (NewTuringMachine defaultSequence).transitions.length = 6 ∧
    (NewTuringMachine defaultSequence).tape =
      { content := ["1", "1", "1", "1", "0", "0"], headPosition := 0 } ∧
    (∃ tm8, TuringMachine.StepN 8 (NewTuringMachine defaultSequence) = some tm8 ∧
      tm8.isFinished = false) ∧
    (∃ tm9, TuringMachine.StepN 9 (NewTuringMachine defaultSequence) = some tm9 ∧
      tm9.isFinished = true ∧ tm9.currentState = "q2" ∧ tm9.IsAccepting = true ∧
      tm9.tape = { content := ["1", "1", "1", "1", "0", "1", "_"], headPosition := 4 }) := by
  refine ⟨by decide, by decide, by decide, ?_, ?_⟩
  · exact ⟨{ tape := { content := ["1", "1", "1", "1", "0", "1", "_"], headPosition := 4 },
             transitions := (NewTuringMachine defaultSequence).transitions,
             currentState := "q2", isFinished := false }, by decide, rfl⟩
  · exact ⟨{ tape := { content := ["1", "1", "1", "1", "0", "1", "_"], headPosition := 4 },
             transitions := (NewTuringMachine defaultSequence).transitions,
             currentState := "q2", isFinished := true }, by decide, rfl, rfl, by decide, rfl⟩

/-! ## The tape refines the ideal tape -/

theorem absPosition_nil : absPosition [] = 0 := by simp [absPosition]

theorem absPosition_append (a b : List TapeOp) :
    absPosition (a ++ b) = absPosition a + absPosition b := by
  simp only [absPosition, List.count_append, Nat.cast_add]
  ring

theorem absPosition_cons (op : TapeOp) (ops : List TapeOp) :
    absPosition (op :: ops) = absPosition [op] + absPosition ops :=
  absPosition_append [op] ops

theorem IdealTape.apply_position (t : IdealTape) (op : TapeOp) :
    (t.apply op).position = t.position + absPosition [op] := by
  cases op with
  | write symbol => simp [IdealTape.apply, absPosition]
  | moveLeft => simp [IdealTape.apply, absPosition]; rfl
  | moveRight => simp [IdealTape.apply, absPosition]

theorem IdealTape.run_position (t : IdealTape) (ops : List TapeOp) :
    (t.run ops).position = t.position + absPosition ops := by
  induction ops generalizing t with
  | nil => simp [IdealTape.run, absPosition_nil]
  | cons op rest ih =>
    have := ih (t.apply op)
    simp only [IdealTape.run, List.foldl_cons] at this ⊢
    rw [this, IdealTape.apply_position, absPosition_cons op rest]
    ring

/-- A position that no call of the sequence writes keeps its symbol. -/
theorem IdealTape.run_cells_unwritten (t : IdealTape) (ops : List TapeOp) (p : Int)
    (h : ∀ pre symbol post, ops = pre ++ TapeOp.write symbol :: post →
      t.position + absPosition pre ≠ p) :
    (t.run ops).cells p = t.cells p := by
  induction ops generalizing t with
  | nil => rfl
  | cons op rest ih =>
    have hrest : ∀ pre symbol post, rest = pre ++ TapeOp.write symbol :: post →
        (t.apply op).position + absPosition pre ≠ p := by
      intro pre symbol post e
      have := h (op :: pre) symbol post (by simp [e])
      rw [IdealTape.apply_position]
      rw [absPosition_cons] at this
      intro hc
      apply this
      rw [← hc]
      ring
    have := ih (t.apply op) hrest
    simp only [IdealTape.run, List.foldl_cons] at this ⊢
    rw [this]
    cases op with
    | write symbol =>
      have hp := h [] symbol rest rfl
      simp only [absPosition_nil, add_zero] at hp
      simp [IdealTape.apply, Ne.symm hp]
    | moveLeft => rfl
    | moveRight => rfl

/-- The simulation invariant: seen from the head, the slice-backed tape and the
ideal tape hold the same symbols, and the head is on a materialised cell. -/
theorem Tape.run_refines (t : Tape) (i : IdealTape) (ops : List TapeOp)
    (hv : t.Valid)
    (hc : ∀ j : Int, t.cellAt (t.headPosition + j) = i.cells (i.position + j)) :
    (t.run ops).Valid ∧
    ∀ j : Int, (t.run ops).cellAt ((t.run ops).headPosition + j)
      = (i.run ops).cells ((i.run ops).position + j) := by
  induction ops generalizing t i with
  | nil => exact ⟨hv, hc⟩
  | cons op rest ih =>
    have step : (t.apply op).Valid ∧
        ∀ j : Int, (t.apply op).cellAt ((t.apply op).headPosition + j)
          = (i.apply op).cells ((i.apply op).position + j) := by
      cases op with
      | write symbol =>
        refine ⟨Tape.Write_valid _ _, fun j => ?_⟩
        have h1 : -1 ≤ t.headPosition := by have := hv.1; omega
        simp only [Tape.apply, IdealTape.apply]
        rw [Tape.Write_cellAt t symbol h1 j, hc j]
        by_cases hj : j = 0
        · simp [hj]
        · have : ¬ (i.position + j = i.position) := by omega
          simp [hj, this]
      | moveLeft =>
        refine ⟨Tape.MoveLeft_valid _ hv, fun j => ?_⟩
        simp only [Tape.apply, IdealTape.apply]
        rw [Tape.MoveLeft_cellAt t hv.1 j]
        have := hc (-1 + j)
        rw [show t.headPosition - 1 + j = t.headPosition + (-1 + j) by ring, this]
        congr 1
        ring
      | moveRight =>
        refine ⟨Tape.MoveRight_valid _ hv, fun j => ?_⟩
        simp only [Tape.apply, IdealTape.apply]
        rw [Tape.MoveRight_cellAt t j]
        have := hc (1 + j)
        rw [show t.headPosition + 1 + j = t.headPosition + (1 + j) by ring, this]
        congr 1
        ring
    have := ih (t.apply op) (i.apply op) step.1 step.2
    simpa only [Tape.run, IdealTape.run, List.foldl_cons] using this

theorem NewTape_cellAt (content : List String) (j : Int) :
    (NewTape content).cellAt ((NewTape content).headPosition + j)
      = (IdealTape.init content).cells ((IdealTape.init content).position + j) := by
  unfold NewTape IdealTape.init Tape.cellAt
  by_cases h0 : content.length = 0
  · have : content = [] := List.length_eq_zero.mp h0
    subst this
    simp
  · simp only [h0, if_false, zero_add]
    by_cases h1 : j < 0 ∨ j ≥ content.length
    · have : ¬ (0 ≤ j ∧ j < content.length) := by omega
      simp only [h1, this, if_true, if_false]
    · have : 0 ≤ j ∧ j < content.length := by omega
      simp only [h1, this, if_true, if_false, and_self]

theorem Tape.run_read_eq_ideal (content : List String) (ops : List TapeOp) :
    ((NewTape content).run ops).Read = ((IdealTape.init content).run ops).read := by
  have := (Tape.run_refines (NewTape content) (IdealTape.init content) ops
    (NewTape_valid content) (NewTape_cellAt content)).2 0
  simpa only [add_zero] using this

/-- C4: the slice-backed tape refines the ideal integer-indexed tape. For every
initial content and every sequence `ops` of Write / MoveLeft / MoveRight calls
applied to `NewTape(content)`, with `p = absPosition ops` (MoveRight calls minus
MoveLeft calls): `Read` returns what the ideal tape holds at `p`; if some call
wrote `symbol` while the head was at `p` and no later call wrote at `p`, `Read`
returns `symbol`; and if no call wrote at `p`, `Read` returns `content[p]` when
`0 ≤ p < len(content)` and the blank otherwise. -/
theorem tape_refines_ideal (content : List String) (ops : List TapeOp) :
    ((NewTape content).run ops).Read = ((IdealTape.init content).run ops).read ∧
    (∀ pre symbol post, ops = pre ++ TapeOp.write symbol :: post →
      absPosition pre = absPosition ops →
      (∀ pre1 symbol1 post1, post = pre1 ++ TapeOp.write symbol1 :: post1 →
        absPosition (pre ++ TapeOp.write symbol :: pre1) ≠ absPosition ops) →
      ((NewTape content).run ops).Read = symbol) ∧
    ((∀ pre symbol post, ops = pre ++ TapeOp.write symbol :: post →
        absPosition pre ≠ absPosition ops) →
      ((NewTape content).run ops).Read =
        if 0 ≤ absPosition ops ∧ absPosition ops < content.length
        then content.getD (absPosition ops).toNat "_" else "_") := by
  have hpos : ((IdealTape.init content).run ops).position = absPosition ops := by
    rw [IdealTape.run_position]
    simp [IdealTape.init]
  refine ⟨Tape.run_read_eq_ideal content ops, ?_, ?_⟩
  · intro pre symbol post hops hp hlater
    rw [Tape.run_read_eq_ideal, IdealTape.read, hpos]
    have hsplit : (IdealTape.init content).run ops
        = (((IdealTape.init content).run pre).apply (TapeOp.write symbol)).run post := by
      simp [IdealTape.run, hops, List.foldl_append]
    have hp1 : (((IdealTape.init content).run pre).apply (TapeOp.write symbol)).position
        = absPosition pre := by
      rw [IdealTape.apply_position, IdealTape.run_position]
      simp [IdealTape.init, absPosition]
    rw [hsplit, IdealTape.run_cells_unwritten]
    · simp only [IdealTape.apply]
      rw [IdealTape.run_position]
      simp [IdealTape.init, hp]
    · intro pre1 symbol1 post1 e
      have := hlater pre1 symbol1 post1 e
      rw [hp1]
      intro hc
      apply this
      rw [← hc, absPosition_append, absPosition_cons]
      simp [absPosition]
  · intro hnone
    rw [Tape.run_read_eq_ideal, IdealTape.read, hpos, IdealTape.run_cells_unwritten]
    · rfl
    · intro pre symbol post e
      have := hnone pre symbol post e
      simpa [IdealTape.init] using this

/-- Witness for C4: on content `a`, after `Write(x); MoveLeft(); MoveRight()` the
head is back at position 0, whose last written symbol is `x`. -/
theorem tape_refines_ideal_witness :
    absPosition [] = absPosition [TapeOp.write "x", TapeOp.moveLeft, TapeOp.moveRight] ∧
    ((NewTape ["a"]).run [TapeOp.write "x", TapeOp.moveLeft, TapeOp.moveRight]).Read = "x" :=
  ⟨by decide,
    (tape_refines_ideal ["a"] [TapeOp.write "x", TapeOp.moveLeft, TapeOp.moveRight]).2.1
      [] "x" [TapeOp.moveLeft, TapeOp.moveRight] rfl (by decide)
      (by
        intro pre1 symbol1 post1 e
        have hmem : TapeOp.write symbol1 ∈ [TapeOp.moveLeft, TapeOp.moveRight] := by
          rw [e]; simp
        simp at hmem)⟩

/-! ## Splitting lemmas -/

theorem cutFirst_some (sep : List Char) (s a b : List Char)
    (h : cutFirst sep s = some (a, b)) :
    s = a ++ sep ++ b ∧ ∀ a1 b1, s = a1 ++ sep ++ b1 → a.length ≤ a1.length := by
  induction s generalizing a b with
  | nil =>
    unfold cutFirst at h
    by_cases hs : sep = []
    · simp [hs] at h
      obtain ⟨rfl, rfl⟩ := h
      simp [hs]
    · simp [hs] at h
  | cons x s ih =>
    unfold cutFirst at h
    by_cases hp : sep <+: x :: s
    · rw [if_pos hp] at h
      simp only [Option.some.injEq, Prod.mk.injEq] at h
      obtain ⟨rfl, rfl⟩ := h
      obtain ⟨t, ht⟩ := hp
      refine ⟨?_, fun a1 b1 _ => Nat.zero_le _⟩
      rw [← ht]
      simp
    · rw [if_neg hp] at h
      cases hc : cutFirst sep s with
      | none => simp [hc] at h
      | some p =>
        obtain ⟨a0, b0⟩ := p
        simp only [hc, Option.map_some', Option.some.injEq, Prod.mk.injEq] at h
        obtain ⟨rfl, rfl⟩ := h
        obtain ⟨e, hmin⟩ := ih a0 b0 hc
        refine ⟨by rw [e]; simp, ?_⟩
        intro a1 b1 e1
        cases a1 with
        | nil =>
          exfalso
          apply hp
          exact ⟨b1, by simpa using e1.symm⟩
        | cons y a2 =>
          simp only [List.cons_append, List.cons.injEq] at e1
          have := hmin a2 b1 e1.2
          simp
          omega

theorem cutFirst_none (sep : List Char) (s : List Char) (h : cutFirst sep s = none)
    (a b : List Char) : s ≠ a ++ sep ++ b := by
  induction s generalizing a with
  | nil =>
    unfold cutFirst at h
    by_cases hs : sep = []
    · simp [hs] at h
    · intro e
      have := congrArg List.length e
      simp at this
      exact hs (List.length_eq_zero.mp (by omega))
  | cons x s ih =>
    unfold cutFirst at h
    by_cases hp : sep <+: x :: s
    · simp [hp] at h
    · rw [if_neg hp] at h
      have hc : cutFirst sep s = none := by
        cases hc : cutFirst sep s with
        | none => rfl
        | some p => simp [hc] at h
      intro e
      cases a with
      | nil => exact hp ⟨b, by simpa using e.symm⟩
      | cons y a2 =>
        simp only [List.cons_append, List.cons.injEq] at e
        exact ih hc a2 e.2

/-- The cut is at the first occurrence: a decomposition with the shortest
possible left part is the one `cutFirst` returns. -/
theorem cutFirst_eq_of_first (sep : List Char) (s a b : List Char)
    (e : s = a ++ sep ++ b)
    (hmin : ∀ a1 b1, s = a1 ++ sep ++ b1 → a.length ≤ a1.length) :
    cutFirst sep s = some (a, b) := by
  cases hc : cutFirst sep s with
  | none => exact absurd e (cutFirst_none sep s hc a b)
  | some p =>
    obtain ⟨a0, b0⟩ := p
    obtain ⟨e0, hmin0⟩ := cutFirst_some sep s a0 b0 hc
    have h1 := hmin a0 b0 e0
    have h2 := hmin0 a b e
    have hlen : a0.length = a.length := by omega
    have e2 : a0 ++ (sep ++ b0) = a ++ (sep ++ b) := by
      rw [← List.append_assoc, ← List.append_assoc, ← e0, ← e]
    obtain ⟨ea, eb⟩ := List.append_inj e2 hlen
    have eb2 := List.append_cancel_left eb
    rw [ea, eb2]

theorem SplitN_two_of_cut (s sep : String) (a b : List Char)
    (h : cutFirst sep.data s.data = some (a, b)) :
    SplitN s sep 2 = [String.mk a, String.mk b] := by
  simp [SplitN, splitLoop, h]

theorem SplitN_two_of_no_cut (s sep : String) (h : cutFirst sep.data s.data = none) :
    SplitN s sep 2 = [s] := by
  simp [SplitN, splitLoop, h]

theorem cutFirst_of_first_occurrence (s sep pre post : String)
    (e : s = pre ++ sep ++ post)
    (hfirst : ∀ pre1 post1 : String, s = pre1 ++ sep ++ post1 → pre.length ≤ pre1.length) :
    cutFirst sep.data s.data = some (pre.data, post.data) := by
  apply cutFirst_eq_of_first
  · rw [e]; simp [String.data_append]
  · intro a1 b1 e1
    have := hfirst (String.mk a1) (String.mk b1) (by
      apply String.ext
      rw [String.data_append, String.data_append]
      exact e1)
    exact this

theorem cutFirst_of_no_occurrence (s sep : String)
    (hno : ∀ pre post : String, s ≠ pre ++ sep ++ post) :
    cutFirst sep.data s.data = none := by
  cases hc : cutFirst sep.data s.data with
  | none => rfl
  | some p =>
    obtain ⟨a, b⟩ := p
    exfalso
    obtain ⟨e, _⟩ := cutFirst_some _ _ a b hc
    apply hno (String.mk a) (String.mk b)
    apply String.ext
    simp [String.data_append, e]

theorem NewTape_explode (post : String) :
    NewTape (Split post "") =
      { content := if post = "" then ["_"] else post.data.map Char.toString,
        headPosition := 0 } := by
  have hs : Split post "" = post.data.map Char.toString := by simp [Split, explode]
  rw [hs]
  unfold NewTape
  by_cases hp : post = ""
  · subst hp; rfl
  · have hne : ¬ (List.map Char.toString post.data).length = 0 := by
      rw [List.length_map]
      intro hd
      exact hp (String.ext (List.length_eq_zero.mp hd))
    rw [if_neg hne, if_neg hp]

theorem cutFirst_single (x : Char) (f rest : List Char) (hx : x ∉ f) :
    cutFirst [x] (f ++ x :: rest) = some (f, rest) := by
  induction f with
  | nil => simp [cutFirst]
  | cons y f ih =>
    have hy : ¬ x = y := fun e => hx (by simp [e])
    have hf : x ∉ f := fun e => hx (by simp [e])
    have hp : ¬ [x] <+: y :: (f ++ x :: rest) := by
      intro hp
      obtain ⟨t, ht⟩ := hp
      simp at ht
      exact hy ht.1
    rw [List.cons_append, cutFirst, if_neg hp, ih hf]
    rfl

theorem cutFirst_single_some (x : Char) (s a b : List Char)
    (h : cutFirst [x] s = some (a, b)) : s = a ++ x :: b ∧ x ∉ a := by
  obtain ⟨e, hmin⟩ := cutFirst_some [x] s a b h
  refine ⟨by simpa using e, ?_⟩
  intro hxa
  obtain ⟨a1, a2, ea⟩ := List.append_of_mem hxa
  have := hmin a1 (a2 ++ x :: b) (by rw [e, ea]; simp)
  rw [ea] at this
  simp at this

theorem cutFirst_single_none (x : Char) (s : List Char)
    (h : cutFirst [x] s = none) : x ∉ s := by
  intro hxs
  obtain ⟨a, b, e⟩ := List.append_of_mem hxs
  exact cutFirst_none [x] s h a b (by rw [e]; simp)

theorem splitLoop_single_length (x : Char) (k : Nat) (s : List Char) :
    (splitLoop [x] k s).length = min k (s.count x) + 1 := by
  induction k generalizing s with
  | zero => simp [splitLoop]
  | succ k ih =>
    unfold splitLoop
    cases hc : cutFirst [x] s with
    | none =>
      have := cutFirst_single_none x s hc
      simp [List.count_eq_zero_of_not_mem this]
    | some p =>
      obtain ⟨a, b⟩ := p
      obtain ⟨e, hxa⟩ := cutFirst_single_some x s a b hc
      simp only [List.length_cons, ih b]
      rw [e, List.count_append, List.count_cons_self, List.count_eq_zero_of_not_mem hxa]
      omega

theorem partsOf_length (r : String) :
    (partsOf r).length = min 4 (r.data.count '1') + 1 := by
  simp only [partsOf, SplitN]
  rw [if_neg (by decide), List.length_map]
  exact splitLoop_single_length '1' 4 r.data

theorem splitLoop_of_no_occurrence (sep s : List Char) (k : Nat)
    (h : cutFirst sep s = none) : splitLoop sep k s = [s] := by
  cases k with
  | zero => rfl
  | succ k => simp [splitLoop, h]

theorem Split_of_no_occurrence (s sep : String) (hsep : sep ≠ "")
    (hno : ∀ pre post : String, s ≠ pre ++ sep ++ post) :
    Split s sep = [s] := by
  unfold Split
  rw [if_neg hsep, splitLoop_of_no_occurrence _ _ _ (cutFirst_of_no_occurrence s sep hno)]
  rfl

theorem String.utf8ByteSize_pos_of_ne (s : String) (h : s ≠ "") : 1 ≤ s.utf8ByteSize := by
  obtain ⟨l⟩ := s
  cases l with
  | nil => exact absurd rfl h
  | cons x l =>
    have := Char.utf8Size_pos x
    simp only [String.utf8ByteSize, String.utf8ByteSize.go]
    omega

theorem Table.set_nil (key : String) (value : List String) :
    Table.set [] key value = [(key, value)] := rfl

/-! ## Claims about the parser -/

/-- C5: the initial tape of `NewTuringMachine(s)` has head position 0. If `s`
contains `111`, with `pre` the text before its first occurrence and `post` the
text after it, the program part is `pre`, the table is built from `pre`, and the
tape content is the characters of `post` as one-character symbols, in order,
or the single blank when `post` is empty. If `s` does not contain `111`, the
content is the single blank and the whole of `s` is the program part. -/
theorem initial_tape_of_sequence (s : String) :
    (NewTuringMachine s).tape.headPosition = 0 ∧
    (∀ pre post : String, s = pre ++ "111" ++ post →
      (∀ pre1 post1 : String, s = pre1 ++ "111" ++ post1 → pre.length ≤ pre1.length) →
      (NewTuringMachine s).tape.content
          = (if post = "" then ["_"] else post.data.map Char.toString) ∧
        programPart s = pre ∧
        (NewTuringMachine s).transitions = buildTransitions pre) ∧
    ((∀ pre post : String, s ≠ pre ++ "111" ++ post) →
      (NewTuringMachine s).tape.content = ["_"] ∧
        programPart s = s ∧
        (NewTuringMachine s).transitions = buildTransitions s) := by
  refine ⟨?_, ?_, ?_⟩
  · simp only [NewTuringMachine]
    rw [NewTape_explode]
  · intro pre post e hfirst
    have hc := cutFirst_of_first_occurrence s "111" pre post e hfirst
    have hsplit := SplitN_two_of_cut s "111" _ _ hc
    have hprog : programPart s = pre := by simp [programPart, hsplit]
    have htape : tapePart s = post := by simp [tapePart, hsplit]
    refine ⟨?_, hprog, ?_⟩
    · simp only [NewTuringMachine, htape]
      rw [NewTape_explode]
    · simp only [NewTuringMachine, hprog]
  · intro hno
    have hc := cutFirst_of_no_occurrence s "111" hno
    have hsplit := SplitN_two_of_no_cut s "111" hc
    have hprog : programPart s = s := by simp [programPart, hsplit]
    have htape : tapePart s = "" := by simp [tapePart, hsplit]
    refine ⟨?_, hprog, ?_⟩
    · simp only [NewTuringMachine, htape]
      rw [NewTape_explode]
      rfl
    · simp only [NewTuringMachine, hprog]

/-- Witness for C5: in `0111101110` the first `111` starts at index 1, so the
tape part is `101110`. -/
theorem initial_tape_of_sequence_witness :
    ("0111101110" : String) = "0" ++ "111" ++ "101110" ∧
    (NewTuringMachine "0111101110").tape.content = ["1", "0", "1", "1", "1", "0"] ∧
    programPart "0111101110" = "0" :=
  ⟨by decide,
    by
      have h := (initial_tape_of_sequence "0111101110").2.1 "0" "101110" (by decide)
        (by
          intro pre1 post1 e
          by_contra hlt
          have h0 : pre1.length = 0 := by
            have : ("0" : String).length = 1 := by decide
            omega
          have hd : pre1.data = [] := List.length_eq_zero.mp h0
          have := congrArg String.data e
          simp [String.data_append, hd] at this)
      exact ⟨by simpa using h.1, h.2.1⟩⟩

theorem partsOf_five (f1 f2 f3 f4 f5 : String)
    (h1 : '1' ∉ f1.data) (h2 : '1' ∉ f2.data) (h3 : '1' ∉ f3.data) (h4 : '1' ∉ f4.data) :
    partsOf (f1 ++ "1" ++ f2 ++ "1" ++ f3 ++ "1" ++ f4 ++ "1" ++ f5) = [f1, f2, f3, f4, f5] := by
  have hd : (f1 ++ "1" ++ f2 ++ "1" ++ f3 ++ "1" ++ f4 ++ "1" ++ f5).data
      = f1.data ++ '1' :: (f2.data ++ '1' :: (f3.data ++ '1' :: (f4.data ++ '1' :: f5.data))) := by
    simp only [String.data_append]
    simp
  simp only [partsOf, SplitN]
  rw [if_neg (by decide), hd]
  show List.map String.mk (splitLoop ['1'] 4 _) = _
  simp only [splitLoop, cutFirst_single _ _ _ h1, cutFirst_single _ _ _ h2,
    cutFirst_single _ _ _ h3, cutFirst_single _ _ _ h4]
  rfl

theorem buildTransitions_single (r : String)
    (hno : ∀ a b : String, r ≠ a ++ "11" ++ b) :
    buildTransitions r = addTransition [] r := by
  unfold buildTransitions
  rw [Split_of_no_occurrence r "11" (by decide) hno]
  rfl

theorem programPart_of_no_separator (s : String)
    (hno : ∀ pre post : String, s ≠ pre ++ "111" ++ post) : programPart s = s := by
  have hc := cutFirst_of_no_occurrence s "111" hno
  simp [programPart, SplitN_two_of_no_cut s "111" hc]

theorem no_triple_of_no_double (s : String) (hno : ∀ a b : String, s ≠ a ++ "11" ++ b)
    (pre post : String) : s ≠ pre ++ "111" ++ post := by
  intro e
  apply hno pre ("1" ++ post)
  rw [e]
  apply String.ext
  simp only [String.data_append]
  simp

/-- C6: a program that is one record `f1 1 f2 1 f3 1 f4 1 f5`, with `f1 .. f4`
free of `1` and no `11` in the record, yields a table with exactly one entry.
Its key is `q` + decimal `len f1`, a comma, and the symbol of `len f2`; its
value is `q` + decimal `len f3`, the symbol of `len f4` and the move of `f5`,
where the symbol of 1, 2, 3 is `0`, `1`, `_` and of `n ≥ 4` the decimal numeral
of `n` (the fields `f2`, `f4` are not empty, so their length is at least 1), and
the move of `0` is `L`, of `00` is `R` and of anything else `X`. -/
theorem single_record_table (f1 f2 f3 f4 f5 : String)
    (h1 : '1' ∉ f1.data) (h2 : '1' ∉ f2.data) (h3 : '1' ∉ f3.data) (h4 : '1' ∉ f4.data)
    (hno : ∀ a b : String,
      f1 ++ "1" ++ f2 ++ "1" ++ f3 ++ "1" ++ f4 ++ "1" ++ f5 ≠ a ++ "11" ++ b) :
    (NewTuringMachine (f1 ++ "1" ++ f2 ++ "1" ++ f3 ++ "1" ++ f4 ++ "1" ++ f5)).transitions =
      [("q" ++ Itoa f1.utf8ByteSize ++ "," ++
          (if f2.utf8ByteSize = 1 then "0" else if f2.utf8ByteSize = 2 then "1"
           else if f2.utf8ByteSize = 3 then "_" else Itoa f2.utf8ByteSize),
        ["q" ++ Itoa f3.utf8ByteSize,
         (if f4.utf8ByteSize = 1 then "0" else if f4.utf8ByteSize = 2 then "1"
          else if f4.utf8ByteSize = 3 then "_" else Itoa f4.utf8ByteSize),
         (if f5 = "0" then "L" else if f5 = "00" then "R" else "X")])] ∧
    1 ≤ f2.utf8ByteSize ∧ 1 ≤ f3.utf8ByteSize ∧ 1 ≤ f4.utf8ByteSize := by
  have hparts := partsOf_five f1 f2 f3 f4 f5 h1 h2 h3 h4
  have hne : f1 ++ "1" ++ f2 ++ "1" ++ f3 ++ "1" ++ f4 ++ "1" ++ f5 ≠ "" := by
    intro e
    have h0 : (partsOf "").length = 1 := by decide
    have := congrArg (fun t => (partsOf t).length) e
    simp only [hparts, h0] at this
    simp at this
  have hprog := programPart_of_no_separator _ (no_triple_of_no_double _ hno)
  have h1d : ("1" : String).data = ['1'] := rfl
  have h2d : ("11" : String).data = ['1', '1'] := rfl
  have hf2 : f2 ≠ "" := by
    intro e
    apply hno f1 (f3 ++ "1" ++ f4 ++ "1" ++ f5)
    apply String.ext
    simp [String.data_append, e, h1d, h2d]
  have hf3 : f3 ≠ "" := by
    intro e
    apply hno (f1 ++ "1" ++ f2) (f4 ++ "1" ++ f5)
    apply String.ext
    simp [String.data_append, e, h1d, h2d]
  have hf4 : f4 ≠ "" := by
    intro e
    apply hno (f1 ++ "1" ++ f2 ++ "1" ++ f3) f5
    apply String.ext
    simp [String.data_append, e, h1d, h2d]
  refine ⟨?_, String.utf8ByteSize_pos_of_ne f2 hf2, String.utf8ByteSize_pos_of_ne f3 hf3,
    String.utf8ByteSize_pos_of_ne f4 hf4⟩
  simp only [NewTuringMachine, hprog]
  rw [buildTransitions_single _ hno]
  unfold addTransition
  rw [if_neg hne, hparts]
  simp only [keyOf, fromStateOf, readSymbolOf, toStateOf, writeSymbolOf, moveOf, hparts]
  rfl

/-- Witness for C6: the record `0 1 00 1 000 1 0000 1 010`. -/
theorem single_record_table_witness :
    (NewTuringMachine "01001000100001010").transitions = [("q1,1", ["q3", "4", "X"])] :=
  (single_record_table "0" "00" "000" "0000" "010" (by decide) (by decide) (by decide)
    (by decide)
    (by
      intro a b e
      have hd := congrArg String.data e
      have h2d : ("11" : String).data = ['1', '1'] := rfl
      have hinf : ['1', '1'] <:+: ("0" ++ "1" ++ "00" ++ "1" ++ "000" ++ "1" ++ "0000"
          ++ "1" ++ "010" : String).data := by
        rw [hd]
        exact ⟨a.data, b.data, by simp [String.data_append, h2d]⟩
      revert hinf
      decide)).1

/-! ## Records with fewer than five fields -/

theorem partsOf_length_eq_five_iff (r : String) :
    (partsOf r).length = 5 ↔ 4 ≤ r.data.count '1' := by
  rw [partsOf_length]
  omega

theorem partsOf_length_le_five (r : String) : (partsOf r).length ≤ 5 := by
  rw [partsOf_length]
  omega

theorem addTransition_of_few_separators (table : Table) (r : String)
    (h : r.data.count '1' < 4) : addTransition table r = table := by
  unfold addTransition
  by_cases hr : r = ""
  · rw [if_pos hr]
  · have : (partsOf r).length ≠ 5 := by
      rw [Ne, partsOf_length_eq_five_iff]
      omega
    rw [if_neg hr, if_pos this]

theorem foldl_addTransition_eq_filter (records : List String) (table : Table) :
    records.foldl addTransition table =
      (records.filter (fun r => decide (r ≠ "" ∧ 4 ≤ r.data.count '1'))).foldl
        (fun t r => t.set (keyOf r) [toStateOf r, writeSymbolOf r, moveOf r]) table := by
  induction records generalizing table with
  | nil => rfl
  | cons r rest ih =>
    rw [List.foldl_cons, ih]
    by_cases hv : r ≠ "" ∧ 4 ≤ r.data.count '1'
    · have h5 : ¬ (partsOf r).length ≠ 5 := by
        rw [Ne, partsOf_length_eq_five_iff]
        exact not_not.mpr hv.2
      rw [List.filter_cons_of_pos (by simpa using hv), List.foldl_cons]
      unfold addTransition
      rw [if_neg hv.1, if_neg h5]
    · have hskip : addTransition table r = table := by
        by_cases hr : r = ""
        · unfold addTransition
          rw [if_pos hr]
        · exact addTransition_of_few_separators table r (by
            by_contra hc
            exact hv ⟨hr, by omega⟩)
      rw [List.filter_cons_of_neg (by simpa using hv), hskip]

/-- C7: the table built by `NewTuringMachine` is the result of inserting, in
order, the decoded entries of exactly those `11`-separated records of the
program part that are non-empty and contain at least four `1` characters. A
record splits into 5 fields exactly when it contains at least four `1`
characters, and never into more; a record with fewer leaves the table as it is
and does not alter the handling of the records before or after it. For the
program `010` + `11` + `0101010100` the table is exactly the entry of the
second record. -/
theorem short_records_are_dropped (s : String) :
    (NewTuringMachine s).transitions =
      ((Split (programPart s) "11").filter
          (fun r => decide (r ≠ "" ∧ 4 ≤ r.data.count '1'))).foldl
        (fun (t : Table) (r : String) =>
          Table.set t (keyOf r) [toStateOf r, writeSymbolOf r, moveOf r]) [] ∧
    (∀ r : String, (SplitN r "1" 5).length = 5 ↔ 4 ≤ r.data.count '1') ∧
    (∀ r : String, (SplitN r "1" 5).length ≤ 5) ∧
    (∀ (table : Table) (before after : List String) (r : String), r.data.count '1' < 4 →
      (before ++ r :: after).foldl addTransition table
        = (before ++ after).foldl addTransition table) ∧
    (NewTuringMachine ("010" ++ "11" ++ "0101010100")).transitions
      = [("q1,0", ["q1", "0", "R"])] := by
  refine ⟨?_, partsOf_length_eq_five_iff, partsOf_length_le_five, ?_, by decide⟩
  · simp only [NewTuringMachine, buildTransitions]
    exact foldl_addTransition_eq_filter _ _
  · intro table before after r hr
    rw [List.foldl_append, List.foldl_append, List.foldl_cons,
      addTransition_of_few_separators _ r hr]

/-- Witness for C7: the three-field record `010` between two valid records. -/
theorem short_records_are_dropped_witness :
    ["0101010100", "010", "0100101001"].foldl addTransition []
      = ["0101010100", "0100101001"].foldl addTransition [] :=
  (short_records_are_dropped "").2.2.2.1 [] ["0101010100"] ["0100101001"] "010" (by decide)

/-! ## Keys of the table -/

theorem digitChar_ne_comma (d : Nat) (hd : d < 10) : Nat.digitChar d ≠ ',' := by
  interval_cases d <;> decide

theorem toDigitsCore_no_comma (fuel n : Nat) (acc : List Char)
    (hacc : ∀ x ∈ acc, x ≠ ',') : ∀ x ∈ Nat.toDigitsCore 10 fuel n acc, x ≠ ',' := by
  induction fuel generalizing n acc with
  | zero => simpa [Nat.toDigitsCore] using hacc
  | succ fuel ih =>
    have hcons : ∀ x ∈ Nat.digitChar (n % 10) :: acc, x ≠ ',' := by
      intro x hx
      rcases List.mem_cons.mp hx with rfl | hx
      · exact digitChar_ne_comma _ (Nat.mod_lt _ (by decide))
      · exact hacc x hx
    simp only [Nat.toDigitsCore]
    split_ifs
    · exact hcons
    · exact ih _ _ hcons

theorem Itoa_no_comma (n : Nat) : ',' ∉ (Itoa n).data := by
  intro h
  exact toDigitsCore_no_comma (n + 1) n [] (by simp) ',' h rfl

theorem parseState_no_comma (u : String) : ',' ∉ (parseState u).data := by
  unfold parseState
  rw [String.data_append]
  intro h
  rcases List.mem_append.mp h with h | h
  · revert h; decide
  · exact Itoa_no_comma _ h

theorem parseSymbol_no_comma (u : String) : ',' ∉ (parseSymbol u).data := by
  unfold parseSymbol
  split
  · decide
  · split
    · decide
    · split
      · decide
      · exact Itoa_no_comma _

/-- Distinct (state, symbol) pairs never collide in the string key. -/
theorem key_injective (a b a1 b1 : String)
    (e : parseState a ++ "," ++ parseSymbol b = parseState a1 ++ "," ++ parseSymbol b1) :
    parseState a = parseState a1 ∧ parseSymbol b = parseSymbol b1 := by
  have hd := congrArg String.data e
  simp only [String.data_append] at hd
  simp only [List.append_assoc, List.singleton_append] at hd
  have := (List.append_cons_inj_of_not_mem (parseState_no_comma a)
    (parseSymbol_no_comma b)).mp hd
  exact ⟨String.ext this.1, String.ext this.2.2⟩

theorem Table.lookup_filter_ne (m : Table) (key k : String) (hne : k ≠ key) :
    (m.filter (fun e => e.1 != key)).lookup k = m.lookup k := by
  induction m with
  | nil => rfl
  | cons e m ih =>
    obtain ⟨ek, ev⟩ := e
    rw [List.filter_cons]
    by_cases h : ek = key
    · have hb : (ek != key) = false := by simp [h]
      have hk : (k == ek) = false := by simpa [h] using hne
      simp only [hb, List.lookup_cons, hk]
      exact ih
    · have hb : (ek != key) = true := by simpa using h
      simp only [hb, if_true, List.lookup_cons, ih]

theorem Table.lookup_filter_self (m : Table) (key : String) :
    (m.filter (fun e => e.1 != key)).lookup key = none := by
  induction m with
  | nil => rfl
  | cons e m ih =>
    obtain ⟨ek, ev⟩ := e
    rw [List.filter_cons]
    by_cases h : ek = key
    · have hb : (ek != key) = false := by simp [h]
      simp only [hb]
      exact ih
    · have hb : (ek != key) = true := by simpa using h
      have hk : (key == ek) = false := by simpa using fun e1 => h e1.symm
      simp only [hb, if_true, List.lookup_cons, hk, ih]

theorem Table.lookup_set_self (m : Table) (key : String) (value : List String) :
    (m.set key value).lookup key = some value := by
  unfold Table.set
  rw [List.lookup_append, Table.lookup_filter_self]
  simp

theorem Table.lookup_set_ne (m : Table) (key k : String) (value : List String)
    (hne : k ≠ key) : (m.set key value).lookup k = m.lookup k := by
  unfold Table.set
  have hk : (k == key) = false := by simpa using hne
  rw [List.lookup_append, Table.lookup_filter_ne m key k hne]
  simp [List.lookup_cons, hk]

theorem Table.keys_set (m : Table) (key : String) (value : List String) :
    (m.set key value).map Prod.fst = (m.map Prod.fst).filter (fun k => k != key) ++ [key] := by
  unfold Table.set
  rw [List.map_append, List.filter_map]
  rfl

theorem Table.keys_set_nodup (m : Table) (key : String) (value : List String)
    (h : (m.map Prod.fst).Nodup) : ((m.set key value).map Prod.fst).Nodup := by
  rw [Table.keys_set]
  refine List.Nodup.append (h.filter _) (List.nodup_singleton key) ?_
  intro k hk1 hk2
  simp at hk1 hk2
  exact hk1.2 hk2

theorem Table.mem_keys_set (m : Table) (key k : String) (value : List String) :
    k ∈ (m.set key value).map Prod.fst ↔ k = key ∨ k ∈ m.map Prod.fst := by
  rw [Table.keys_set]
  by_cases hk : k = key
  · simp [hk]
  · simp [hk]

theorem foldl_set_lookup_of_not_mem (key : String → String) (val : String → List String)
    (rs : List String) (t : Table) (k : String) (h : ∀ r ∈ rs, key r ≠ k) :
    (rs.foldl (fun (t : Table) (r : String) => Table.set t (key r) (val r)) t).lookup k
      = t.lookup k := by
  induction rs generalizing t with
  | nil => rfl
  | cons r rest ih =>
    rw [List.foldl_cons, ih _ (fun r1 h1 => h r1 (List.mem_cons_of_mem _ h1))]
    exact Table.lookup_set_ne t (key r) k (val r) (Ne.symm (h r (List.mem_cons_self _ _)))

theorem foldl_set_keys_nodup (key : String → String) (val : String → List String)
    (rs : List String) (t : Table) (h : (t.map Prod.fst).Nodup) :
    ((rs.foldl (fun (t : Table) (r : String) => Table.set t (key r) (val r)) t).map
      Prod.fst).Nodup := by
  induction rs generalizing t with
  | nil => exact h
  | cons r rest ih =>
    rw [List.foldl_cons]
    exact ih _ (Table.keys_set_nodup t (key r) (val r) h)

theorem foldl_set_mem_keys (key : String → String) (val : String → List String)
    (rs : List String) (t : Table) (k : String) :
    k ∈ (rs.foldl (fun (t : Table) (r : String) => Table.set t (key r) (val r)) t).map Prod.fst
      ↔ k ∈ t.map Prod.fst ∨ ∃ r ∈ rs, key r = k := by
  induction rs generalizing t with
  | nil => simp
  | cons r rest ih =>
    rw [List.foldl_cons, ih, Table.mem_keys_set]
    constructor
    · rintro ((h | h) | ⟨r1, h1, h2⟩)
      · exact Or.inr ⟨r, List.mem_cons_self _ _, h.symm⟩
      · exact Or.inl h
      · exact Or.inr ⟨r1, List.mem_cons_of_mem _ h1, h2⟩
    · rintro (h | ⟨r1, h1, h2⟩)
      · exact Or.inl (Or.inr h)
      · rcases List.mem_cons.mp h1 with rfl | h1
        · exact Or.inl (Or.inl h2.symm)
        · exact Or.inr ⟨r1, h1, h2⟩

theorem transitions_eq_foldl_valid (s : String) :
    (NewTuringMachine s).transitions =
      ((Split (programPart s) "11").filter
          (fun r => decide (r ≠ "" ∧ (partsOf r).length = 5))).foldl
        (fun (t : Table) (r : String) =>
          Table.set t (keyOf r) [toStateOf r, writeSymbolOf r, moveOf r]) [] := by
  have hp : (fun r : String => decide (r ≠ "" ∧ (partsOf r).length = 5))
      = (fun r : String => decide (r ≠ "" ∧ 4 ≤ r.data.count '1')) := by
    funext r
    exact decide_eq_decide.mpr (and_congr Iff.rfl (partsOf_length_eq_five_iff r))
  rw [hp]
  simp only [NewTuringMachine, buildTransitions]
  exact foldl_addTransition_eq_filter _ _

/-- C8: last write wins. Let the valid records of the program part (non-empty,
five fields), in order, be `before ++ r :: after`, where no record of `after`
decodes to the same (fromState, readSymbol) pair as `r`. Then the table maps
the key of `r` to the (toState, writeSymbol, move) decoded from `r`. Moreover
the keys of the table are pairwise distinct, they are exactly the keys of the
valid records, and two records have the same string key `fromState,readSymbol`
only if they have the same fromState and the same readSymbol. -/
theorem last_record_wins (s : String) (before after : List String) (r : String)
    (hvalid : (Split (programPart s) "11").filter
        (fun r => decide (r ≠ "" ∧ (partsOf r).length = 5)) = before ++ r :: after)
    (hlast : ∀ r1 ∈ after,
      ¬ (fromStateOf r1 = fromStateOf r ∧ readSymbolOf r1 = readSymbolOf r)) :
    (NewTuringMachine s).transitions.lookup (fromStateOf r ++ "," ++ readSymbolOf r)
      = some [toStateOf r, writeSymbolOf r, moveOf r] ∧
    ((NewTuringMachine s).transitions.map Prod.fst).Nodup ∧
    (∀ k : String, k ∈ (NewTuringMachine s).transitions.map Prod.fst ↔
      ∃ r1 ∈ before ++ r :: after, fromStateOf r1 ++ "," ++ readSymbolOf r1 = k) ∧
    (∀ r1 r2 : String,
      fromStateOf r1 ++ "," ++ readSymbolOf r1 = fromStateOf r2 ++ "," ++ readSymbolOf r2 →
      fromStateOf r1 = fromStateOf r2 ∧ readSymbolOf r1 = readSymbolOf r2) := by
  have hinj : ∀ r1 r2 : String,
      fromStateOf r1 ++ "," ++ readSymbolOf r1 = fromStateOf r2 ++ "," ++ readSymbolOf r2 →
      fromStateOf r1 = fromStateOf r2 ∧ readSymbolOf r1 = readSymbolOf r2 :=
    fun r1 r2 e => key_injective _ _ _ _ e
  rw [transitions_eq_foldl_valid, hvalid]
  refine ⟨?_, ?_, ?_, hinj⟩
  · rw [List.foldl_append, List.foldl_cons, foldl_set_lookup_of_not_mem]
    · exact Table.lookup_set_self _ _ _
    · intro r1 h1 e
      exact hlast r1 h1 (hinj r1 r e)
  · exact foldl_set_keys_nodup _ _ _ _ List.nodup_nil
  · intro k
    rw [foldl_set_mem_keys]
    simp [keyOf]

/-- Witness for C8: three valid records, the first two with key `q1,0`, the
third with key `q1,1`; the table holds the value of the second for `q1,0`. -/
theorem last_record_wins_witness :
    (NewTuringMachine "01010101001101010010010110100101001").transitions.lookup "q1,0"
      = some ["q2", "1", "L"] :=
  (last_record_wins "01010101001101010010010110100101001"
    ["0101010100"] ["0100101001"] "01010010010" (by decide)
    (by
      intro r1 h1
      rw [List.mem_singleton] at h1
      subst h1
      decide)).1

/-! ## Construction, persistence and the tape invariant -/

/-- C11: for every input string `NewTuringMachine` returns a machine in state
`q1` that is not finished; and when its table has no entry for `q1` and the
first tape symbol, the first `Step` sets finished, leaves the state `q1` (so
`IsAccepting` is false) and leaves tape and table as they were. For the input
`1110` the table is empty, the tape is `0`, and one `Step` gives the finished,
non-accepting machine in state `q1`. -/
theorem new_machine_starts_in_q1 (input : String) :
    (NewTuringMachine input).currentState = "q1" ∧
    (NewTuringMachine input).isFinished = false ∧
    ((NewTuringMachine input).transitions.lookup
        ("q1" ++ "," ++ (NewTuringMachine input).tape.Read) = none →
      ∃ tm1, (NewTuringMachine input).Step = some tm1 ∧ tm1.isFinished = true ∧
        tm1.currentState = "q1" ∧ tm1.IsAccepting = false ∧
        tm1.tape = (NewTuringMachine input).tape ∧
        tm1.transitions = (NewTuringMachine input).transitions) ∧
    (NewTuringMachine "1110").transitions = [] ∧
    (NewTuringMachine "1110").tape = { content := ["0"], headPosition := 0 } ∧
    (NewTuringMachine "1110").Step =
      some { tape := { content := ["0"], headPosition := 0 }, transitions := [],
             currentState := "q1", isFinished := true } ∧
    TuringMachine.IsAccepting
      { tape := { content := ["0"], headPosition := 0 }, transitions := [],
        currentState := "q1", isFinished := true } = false := by
  refine ⟨rfl, rfl, ?_, by decide, by decide, by decide, by decide⟩
  intro hno
  refine ⟨{ NewTuringMachine input with isFinished := true }, ?_, rfl, rfl, ?_, rfl, rfl⟩
  swap
  · show (("q1" : String) == "q2") = false
    decide
  unfold TuringMachine.Step
  have h1 : (NewTuringMachine input).currentState = "q1" := rfl
  have h2 : (NewTuringMachine input).isFinished = false := rfl
  simp only [h1, h2, hno]
  rfl

/-- Witness for C11: the input `1110`, whose table is empty. -/
theorem new_machine_starts_in_q1_witness :
    ∃ tm1, (NewTuringMachine "1110").Step = some tm1 ∧ tm1.isFinished = true ∧
      tm1.currentState = "q1" ∧ tm1.IsAccepting = false ∧
      tm1.tape = (NewTuringMachine "1110").tape ∧
      tm1.transitions = (NewTuringMachine "1110").transitions :=
  (new_machine_starts_in_q1 "1110").2.2.1 (by decide)

theorem Tape.run_valid (content : List String) (ops : List TapeOp) :
    ((NewTape content).run ops).Valid :=
  (Tape.run_refines (NewTape content) (IdealTape.init content) ops
    (NewTape_valid content) (NewTape_cellAt content)).1

theorem Tape.read_after_write_left_right (t : Tape) (s : String) (h : t.Valid) :
    (((t.Write s).MoveLeft).MoveRight).Read = s := by
  have hw := Tape.Write_valid t s
  have h1 := Tape.MoveRight_cellAt ((t.Write s).MoveLeft) 0
  have h2 := Tape.MoveLeft_cellAt (t.Write s) hw.1 1
  have h3 := Tape.Write_cellAt t s (by have := h.1; omega) 0
  simp only [add_zero, sub_add_cancel, if_true] at h1 h2 h3
  rw [Tape.Read_eq_cellAt, h1, h2, h3]

theorem Tape.read_after_write_right_left (t : Tape) (s : String) (h : t.Valid) :
    (((t.Write s).MoveRight).MoveLeft).Read = s := by
  have hw := Tape.Write_valid t s
  have hr := Tape.MoveRight_valid _ hw
  have h1 := Tape.MoveLeft_cellAt ((t.Write s).MoveRight) hr.1 0
  have h2 := Tape.MoveRight_cellAt (t.Write s) (-1)
  have h3 := Tape.Write_cellAt t s (by have := h.1; omega) 0
  simp only [add_zero, if_true] at h1 h3
  rw [show (t.Write s).headPosition + 1 + -1 = (t.Write s).headPosition by ring] at h2
  rw [show (t.Write s).MoveRight.headPosition - 1 = (t.Write s).MoveRight.headPosition + -1
    by ring] at h1
  rw [Tape.Read_eq_cellAt, h1, h2, h3]

/-- C15: tape persistence. On every tape reached from `NewTape(content)` by
Write / MoveLeft / MoveRight calls and for every symbol `s`, the sequence
`Write(s); MoveLeft(); MoveRight(); Read()` returns `s`, and so does
`Write(s); MoveRight(); MoveLeft(); Read()`, also when the move grows the tape. -/
theorem write_move_away_and_back (content : List String) (ops : List TapeOp) (s : String) :
    (((((NewTape content).run ops).Write s).MoveLeft).MoveRight).Read = s ∧
    (((((NewTape content).run ops).Write s).MoveRight).MoveLeft).Read = s :=
  ⟨Tape.read_after_write_left_right _ s (Tape.run_valid content ops),
   Tape.read_after_write_right_left _ s (Tape.run_valid content ops)⟩

/-- C16: the tape invariant. For every initial content, the empty one included,
and every sequence of Write / MoveLeft / MoveRight calls applied to
`NewTape(content)`, the content is not empty and
`0 ≤ headPosition < len(content)`. -/
theorem head_on_materialised_cell (content : List String) (ops : List TapeOp) :
    ((NewTape content).run ops).content ≠ [] ∧
    0 ≤ ((NewTape content).run ops).headPosition ∧
    ((NewTape content).run ops).headPosition < ((NewTape content).run ops).content.length := by
  have h := Tape.run_valid content ops
  refine ⟨?_, h.1, h.2⟩
  intro he
  have h2 := h.2
  rw [he] at h2
  have h1 := h.1
  simp at h2
  omega

/-! ## The step budget of the driver -/

theorem Model.UpdateStepMsg_idle (m : Model) (tm : TuringMachine) (hm : m.tm = some tm)
    (hc : ¬ (tm.isFinished = false ∧ m.maxSteps > 0)) : m.UpdateStepMsg = some m := by
  unfold Model.UpdateStepMsg
  simp only [hm, if_neg hc]

theorem Model.UpdateStepMsg_none (m : Model) (tm : TuringMachine) (hm : m.tm = some tm)
    (hc : tm.isFinished = false ∧ m.maxSteps > 0) (hs : tm.Step = none) :
    m.UpdateStepMsg = none := by
  unfold Model.UpdateStepMsg
  simp only [hm, if_pos hc, hs]

theorem Model.UpdateStepMsg_step (m : Model) (tm tm1 : TuringMachine) (hm : m.tm = some tm)
    (hc : tm.isFinished = false ∧ m.maxSteps > 0) (hs : tm.Step = some tm1) :
    ∃ m1, m.UpdateStepMsg = some m1 ∧ m1.tm = some tm1 ∧ m1.maxSteps = m.maxSteps - 1 := by
  unfold Model.UpdateStepMsg
  simp only [hm, if_pos hc, hs]
  by_cases h2 : tm1.isFinished = true ∨ m.maxSteps - 1 = 0
  · rw [if_pos h2]
    exact ⟨_, rfl, rfl, rfl⟩
  · rw [if_neg h2]
    exact ⟨_, rfl, rfl, rfl⟩

theorem Model.UpdateN_spec (k : Nat) (m : Model) (tm : TuringMachine) (hm : m.tm = some tm)
    (hN : 0 ≤ m.maxSteps) :
    (Model.UpdateN k m = none ∧ TuringMachine.StepN (min k m.maxSteps.toNat) tm = none) ∨
    ∃ m1 tm1, Model.UpdateN k m = some m1 ∧ m1.tm = some tm1 ∧
      TuringMachine.StepN (min k m.maxSteps.toNat) tm = some tm1 ∧
      0 ≤ m1.maxSteps ∧ m1.maxSteps ≤ m.maxSteps ∧ m.maxSteps - m1.maxSteps ≤ k ∧
      TuringMachine.StepN (m.maxSteps - m1.maxSteps).toNat tm = some tm1 := by
  induction k generalizing m tm with
  | zero =>
    right
    exact ⟨m, tm, rfl, hm, by simp [TuringMachine.StepN], hN, le_refl _, by simp,
      by simp [TuringMachine.StepN]⟩
  | succ k ih =>
    by_cases hc : tm.isFinished = false ∧ m.maxSteps > 0
    · have hmin : min (k + 1) m.maxSteps.toNat = min k (m.maxSteps - 1).toNat + 1 := by
        have := hc.2
        omega
      cases hs : tm.Step with
      | none =>
        left
        refine ⟨?_, ?_⟩
        · simp only [Model.UpdateN, Model.UpdateStepMsg_none m tm hm hc hs]
          rfl
        · rw [hmin]
          simp only [TuringMachine.StepN, hs]
          rfl
      | some tm1 =>
        obtain ⟨mx, hx, hxtm, hxmax⟩ := Model.UpdateStepMsg_step m tm tm1 hm hc hs
        have hstep : ∀ j, TuringMachine.StepN (j + 1) tm = TuringMachine.StepN j tm1 := by
          intro j
          simp only [TuringMachine.StepN, hs]
          rfl
        have hup : Model.UpdateN (k + 1) m = Model.UpdateN k mx := by
          simp only [Model.UpdateN, hx]
          rfl
        have hx0 : 0 ≤ mx.maxSteps := by
          have := hc.2
          omega
        rcases ih mx tm1 hxtm hx0 with ⟨h1, h2⟩ | ⟨m2, tm2, h1, h2, h3, h4, h5, h6, h7⟩
        · left
          refine ⟨by rw [hup, h1], ?_⟩
          rw [hmin, hstep, ← hxmax, h2]
        · right
          refine ⟨m2, tm2, by rw [hup, h1], h2, ?_, h4, by omega, by omega, ?_⟩
          · rw [hmin, hstep, ← hxmax, h3]
          · have : (m.maxSteps - m2.maxSteps).toNat = (mx.maxSteps - m2.maxSteps).toNat + 1 := by
              omega
            rw [this, hstep, h7]
    · have hup : Model.UpdateN (k + 1) m = Model.UpdateN k m := by
        simp only [Model.UpdateN, Model.UpdateStepMsg_idle m tm hm hc]
        rfl
      have heq : TuringMachine.StepN (min (k + 1) m.maxSteps.toNat) tm
          = TuringMachine.StepN (min k m.maxSteps.toNat) tm := by
        by_cases hf : tm.isFinished = true
        · rw [TuringMachine.StepN_finished _ tm hf, TuringMachine.StepN_finished _ tm hf]
        · have h0 : m.maxSteps.toNat = 0 := by
            have : ¬ m.maxSteps > 0 := fun h => hc ⟨by simpa using hf, h⟩
            omega
          simp [h0]
      rw [hup, heq]
      rcases ih m tm hm hN with h | ⟨m2, tm2, h1, h2, h3, h4, h5, h6, h7⟩
      · exact Or.inl h
      · exact Or.inr ⟨m2, tm2, h1, h2, h3, h4, h5, by omega, h7⟩

/-- C12: the step budget. Let a driver model hold the machine `tm` with
`maxSteps = N ≥ 0`, and let `k` `stepMsg` messages be handled. If `min(k, N)`
Step calls on `tm` give the machine `tmk`, the model after the `k` messages
holds exactly `tmk`; its `maxSteps` is `N - c` with `0 ≤ c ≤ N` and `c ≤ k`,
where `c` is the number of Step calls made (each call comes with one
decrement), and `tmk` is also the result of `c` Step calls. If those Step calls
index a table entry out of range, so does the driver. A model whose `maxSteps`
is 0 is returned unchanged by every further `stepMsg`. -/
theorem step_budget (m : Model) (tm : TuringMachine) (N : Int) (k : Nat)
    (hm : m.tm = some tm) (hN : m.maxSteps = N) (h0 : 0 ≤ N) :
    (∀ tmk, TuringMachine.StepN (min k N.toNat) tm = some tmk →
      ∃ m1, Model.UpdateN k m = some m1 ∧ m1.tm = some tmk ∧
        0 ≤ m1.maxSteps ∧ m1.maxSteps ≤ N ∧ N - m1.maxSteps ≤ k ∧
        TuringMachine.StepN (N - m1.maxSteps).toNat tm = some tmk) ∧
    (TuringMachine.StepN (min k N.toNat) tm = none → Model.UpdateN k m = none) ∧
    (∀ m0 : Model, m0.maxSteps = 0 → ∀ j : Nat, Model.UpdateN j m0 = some m0) := by
  subst hN
  refine ⟨?_, ?_, ?_⟩
  · intro tmk hk
    rcases Model.UpdateN_spec k m tm hm h0 with ⟨_, h2⟩ | ⟨m1, tm1, h1, h2, h3, h4, h5, h6, h7⟩
    · rw [h2] at hk
      exact absurd hk (by simp)
    · rw [h3] at hk
      have : tm1 = tmk := Option.some.inj hk
      subst this
      exact ⟨m1, h1, h2, h4, h5, h6, h7⟩
  · intro hnone
    rcases Model.UpdateN_spec k m tm hm h0 with ⟨h1, _⟩ | ⟨m1, tm1, h1, h2, h3, _⟩
    · exact h1
    · rw [h3] at hnone
      exact absurd hnone (by simp)
  · intro m0 hz j
    have hidle : m0.UpdateStepMsg = some m0 := by
      cases htm : m0.tm with
      | none =>
        unfold Model.UpdateStepMsg
        simp only [htm]
      | some tm0 =>
        exact Model.UpdateStepMsg_idle m0 tm0 htm (by
          intro hc
          have := hc.2
          omega)
    induction j with
    | zero => rfl
    | succ j ih =>
      simp only [Model.UpdateN, hidle]
      exact ih

/-- Witness for C12: the default machine with a budget of 3 after 5 messages
is the default machine after 3 Step calls. -/
theorem step_budget_witness :
    ∃ m1, Model.UpdateN 5
        { tm := some (NewTuringMachine defaultSequence), state := "running",
          stepByStep := false, stepCount := 0, maxSteps := 3 } = some m1 ∧
      m1.tm = some { tape := { content := ["1", "1", "1", "1", "0", "0"], headPosition := 3 },
                     transitions := (NewTuringMachine defaultSequence).transitions,
                     currentState := "q1", isFinished := false } ∧
      0 ≤ m1.maxSteps ∧ m1.maxSteps ≤ 3 ∧ 3 - m1.maxSteps ≤ (5 : Nat) ∧
      TuringMachine.StepN (3 - m1.maxSteps).toNat (NewTuringMachine defaultSequence) =
        some { tape := { content := ["1", "1", "1", "1", "0", "0"], headPosition := 3 },
               transitions := (NewTuringMachine defaultSequence).transitions,
               currentState := "q1", isFinished := false } :=
  (step_budget
    { tm := some (NewTuringMachine defaultSequence), state := "running",
      stepByStep := false, stepCount := 0, maxSteps := 3 }
    (NewTuringMachine defaultSequence) 3 5 rfl rfl (by decide)).1
    { tape := { content := ["1", "1", "1", "1", "0", "0"], headPosition := 3 },
      transitions := (NewTuringMachine defaultSequence).transitions,
      currentState := "q1", isFinished := false } (by rfl)

/-! ## Reachable machines -/

theorem mem_of_lookup_eq_some (m : Table) (key : String) (value : List String)
    (h : m.lookup key = some value) : (key, value) ∈ m := by
  obtain ⟨l1, l2, e, _⟩ := List.lookup_eq_some_iff.mp h
  rw [e]
  simp

theorem Table.mem_set (m : Table) (key : String) (value : List String)
    (e : String × List String) (h : e ∈ m.set key value) : e = (key, value) ∨ e ∈ m := by
  unfold Table.set at h
  rcases List.mem_append.mp h with h | h
  · exact Or.inr (List.mem_filter.mp h).1
  · exact Or.inl (List.mem_singleton.mp h)

theorem foldl_set_mem (key : String → String) (val : String → List String)
    (rs : List String) (t : Table) (e : String × List String)
    (h : e ∈ rs.foldl (fun (t : Table) (r : String) => Table.set t (key r) (val r)) t) :
    e ∈ t ∨ ∃ r ∈ rs, e = (key r, val r) := by
  induction rs generalizing t with
  | nil => exact Or.inl h
  | cons r rest ih =>
    rw [List.foldl_cons] at h
    rcases ih _ h with h1 | ⟨r1, h1, h2⟩
    · rcases Table.mem_set t _ _ e h1 with h3 | h3
      · exact Or.inr ⟨r, List.mem_cons_self _ _, h3⟩
      · exact Or.inl h3
    · exact Or.inr ⟨r1, List.mem_cons_of_mem _ h1, h2⟩

/-- Every entry of the built table is the decoded entry of a valid record. -/
theorem NewTuringMachine_entry (s : String) (e : String × List String)
    (h : e ∈ (NewTuringMachine s).transitions) :
    ∃ r ∈ Split (programPart s) "11", r ≠ "" ∧ (partsOf r).length = 5 ∧
      e = (keyOf r, [toStateOf r, writeSymbolOf r, moveOf r]) := by
  rw [transitions_eq_foldl_valid] at h
  rcases foldl_set_mem _ _ _ _ e h with h1 | ⟨r, h1, h2⟩
  · simp at h1
  · obtain ⟨hr, hp⟩ := List.mem_filter.mp h1
    have hp2 : r ≠ "" ∧ (partsOf r).length = 5 := by simpa using hp
    exact ⟨r, hr, hp2.1, hp2.2, h2⟩

theorem NewTuringMachine_entry_length (s : String) (e : String × List String)
    (h : e ∈ (NewTuringMachine s).transitions) : e.2.length = 3 := by
  obtain ⟨r, _, _, _, he⟩ := NewTuringMachine_entry s e h
  rw [he]
  rfl

theorem TuringMachine.Step_transitions (tm tm1 : TuringMachine) (hs : tm.Step = some tm1) :
    tm1.transitions = tm.transitions := by
  unfold TuringMachine.Step at hs
  by_cases hfin : tm.isFinished = true
  · simp [hfin] at hs; subst hs; rfl
  · simp only [hfin] at hs
    cases hl : tm.transitions.lookup (tm.currentState ++ "," ++ tm.tape.Read) with
    | none => simp [hl] at hs; subst hs; rfl
    | some tr =>
      simp only [hl] at hs
      rcases tr with _ | ⟨toState, _ | ⟨writeSymbol, _ | ⟨move, rest⟩⟩⟩
      · simp at hs
      · simp at hs
      · simp at hs
      · simp at hs
        subst hs
        rfl

theorem TuringMachine.StepN_transitions (n : Nat) (tm tm1 : TuringMachine)
    (hs : TuringMachine.StepN n tm = some tm1) : tm1.transitions = tm.transitions := by
  induction n generalizing tm with
  | zero => simp [TuringMachine.StepN] at hs; subst hs; rfl
  | succ k ih =>
    simp only [TuringMachine.StepN] at hs
    cases hst : tm.Step with
    | none => simp [hst] at hs
    | some tm2 =>
      simp [hst] at hs
      rw [ih tm2 hs, TuringMachine.Step_transitions tm tm2 hst]

/-- What one `Step` does on a machine that is not finished and whose entries
all have three components: it halts when there is no entry, and applies the
entry otherwise. -/
theorem TuringMachine.Step_cases (tm : TuringMachine) (hfin : tm.isFinished = false)
    (hlen : ∀ e ∈ tm.transitions, e.2.length = 3) :
    (tm.transitions.lookup (tm.currentState ++ "," ++ tm.tape.Read) = none ∧
      tm.Step = some { tm with isFinished := true }) ∨
    (∃ toState writeSymbol move,
      tm.transitions.lookup (tm.currentState ++ "," ++ tm.tape.Read)
        = some [toState, writeSymbol, move] ∧
      tm.Step = some { tm with
        tape := if move = "L" then (tm.tape.Write writeSymbol).MoveLeft
                else if move = "R" then (tm.tape.Write writeSymbol).MoveRight
                else tm.tape.Write writeSymbol,
        currentState := toState }) := by
  cases hl : tm.transitions.lookup (tm.currentState ++ "," ++ tm.tape.Read) with
  | none =>
    left
    refine ⟨rfl, ?_⟩
    unfold TuringMachine.Step
    simp [hfin, hl]
  | some tr =>
    right
    have h3 := hlen _ (mem_of_lookup_eq_some _ _ _ hl)
    rcases tr with _ | ⟨toState, _ | ⟨writeSymbol, _ | ⟨move, _ | ⟨x, rest⟩⟩⟩⟩
    · simp at h3
    · simp at h3
    · simp at h3
    · exact ⟨toState, writeSymbol, move, rfl,
        TuringMachine.Step_entry tm toState writeSymbol move hfin hl⟩
    · simp at h3

theorem TuringMachine.Step_total (tm : TuringMachine)
    (hlen : ∀ e ∈ tm.transitions, e.2.length = 3) : ∃ tm1, tm.Step = some tm1 := by
  by_cases hfin : tm.isFinished = true
  · exact ⟨tm, TuringMachine.Step_finished tm hfin⟩
  · rcases TuringMachine.Step_cases tm (by simpa using hfin) hlen with ⟨_, h⟩ | ⟨_, _, _, _, h⟩
    · exact ⟨_, h⟩
    · exact ⟨_, h⟩

theorem TuringMachine.StepN_total (n : Nat) (tm : TuringMachine)
    (hlen : ∀ e ∈ tm.transitions, e.2.length = 3) :
    ∃ tm1, TuringMachine.StepN n tm = some tm1 := by
  induction n generalizing tm with
  | zero => exact ⟨tm, rfl⟩
  | succ k ih =>
    obtain ⟨tm2, h2⟩ := TuringMachine.Step_total tm hlen
    have hlen2 : ∀ e ∈ tm2.transitions, e.2.length = 3 := by
      rw [TuringMachine.Step_transitions tm tm2 h2]
      exact hlen
    obtain ⟨tm3, h3⟩ := ih tm2 hlen2
    exact ⟨tm3, by simp [TuringMachine.StepN, h2, h3]⟩

theorem TuringMachine.Step_state (tm tm1 : TuringMachine) (hs : tm.Step = some tm1) :
    tm1.currentState = tm.currentState ∨
    ∃ e ∈ tm.transitions, e.2[0]? = some tm1.currentState := by
  unfold TuringMachine.Step at hs
  by_cases hfin : tm.isFinished = true
  · simp [hfin] at hs; subst hs; exact Or.inl rfl
  · simp only [hfin] at hs
    cases hl : tm.transitions.lookup (tm.currentState ++ "," ++ tm.tape.Read) with
    | none => simp [hl] at hs; subst hs; exact Or.inl rfl
    | some tr =>
      simp only [hl] at hs
      rcases tr with _ | ⟨toState, _ | ⟨writeSymbol, _ | ⟨move, rest⟩⟩⟩
      · simp at hs
      · simp at hs
      · simp at hs
      · simp at hs
        subst hs
        exact Or.inr ⟨_, mem_of_lookup_eq_some _ _ _ hl, rfl⟩

theorem TuringMachine.StepN_state (n : Nat) (tm tm1 : TuringMachine)
    (hs : TuringMachine.StepN n tm = some tm1) :
    tm1.currentState = tm.currentState ∨
    ∃ e ∈ tm.transitions, e.2[0]? = some tm1.currentState := by
  induction n generalizing tm with
  | zero => simp [TuringMachine.StepN] at hs; subst hs; exact Or.inl rfl
  | succ k ih =>
    simp only [TuringMachine.StepN] at hs
    cases hst : tm.Step with
    | none => simp [hst] at hs
    | some tm2 =>
      simp [hst] at hs
      have ht := TuringMachine.Step_transitions tm tm2 hst
      rcases ih tm2 hs with h1 | h1
      · rcases TuringMachine.Step_state tm tm2 hst with h2 | h2
        · exact Or.inl (h1.trans h2)
        · rw [← h1] at h2
          exact Or.inr h2
      · rw [ht] at h1
        exact Or.inr h1

/-- A finished machine reached from an unfinished one went through a
configuration without a matching entry. -/
theorem TuringMachine.StepN_finished_cause (n : Nat) (tm tm1 : TuringMachine)
    (hs : TuringMachine.StepN n tm = some tm1) (h0 : tm.isFinished = false)
    (h1 : tm1.isFinished = true) :
    ∃ k tmk, TuringMachine.StepN k tm = some tmk ∧ tmk.isFinished = false ∧
      tmk.transitions.lookup (tmk.currentState ++ "," ++ tmk.tape.Read) = none := by
  induction n generalizing tm with
  | zero =>
    simp [TuringMachine.StepN] at hs
    subst hs
    rw [h0] at h1
    exact absurd h1 (by decide)
  | succ n ih =>
    simp only [TuringMachine.StepN] at hs
    cases hst : tm.Step with
    | none => simp [hst] at hs
    | some tm2 =>
      simp [hst] at hs
      by_cases h2 : tm2.isFinished = true
      · refine ⟨0, tm, rfl, h0, ?_⟩
        cases hl : tm.transitions.lookup (tm.currentState ++ "," ++ tm.tape.Read) with
        | none => rfl
        | some tr =>
          exfalso
          unfold TuringMachine.Step at hst
          simp only [h0, hl] at hst
          rcases tr with _ | ⟨toState, _ | ⟨writeSymbol, _ | ⟨move, rest⟩⟩⟩
          · simp at hst
          · simp at hst
          · simp at hst
          · simp at hst
            subst hst
            simp [h0] at h2
      · obtain ⟨k, tmk, hk1, hk2, hk3⟩ := ih tm2 hs (by simpa using h2)
        exact ⟨k + 1, tmk, by simp [TuringMachine.StepN, hst, hk1], hk2, hk3⟩

/-! ## Claims about runs of the machine -/

/-- C17: no fatal outcome. For every input string and every `n`, the `n`
successive `Step` calls on `NewTuringMachine(input)` return a machine (no index
is out of range). In that machine every table entry has exactly three
components, the head is within the content (the index `Read` uses), the index
that `Write` assigns to after its two expansion loops is within the content,
and, when the machine is not finished, the next `Step` either finds no entry
and sets finished, or applies the entry it finds. -/
theorem no_fatal_outcome (input : String) (n : Nat) :
    ∃ tm, TuringMachine.StepN n (NewTuringMachine input) = some tm ∧
      (∀ e ∈ tm.transitions, e.2.length = 3) ∧
      (0 ≤ tm.tape.headPosition ∧ tm.tape.headPosition < tm.tape.content.length) ∧
      (0 ≤ (Tape.growLeft 1 (Tape.growRight
            (tm.tape.headPosition + 1 - tm.tape.content.length).toNat tm.tape)).headPosition ∧
        (Tape.growLeft 1 (Tape.growRight
            (tm.tape.headPosition + 1 - tm.tape.content.length).toNat tm.tape)).headPosition
          < (Tape.growLeft 1 (Tape.growRight
            (tm.tape.headPosition + 1 - tm.tape.content.length).toNat
              tm.tape)).content.length) ∧
      (tm.isFinished = false →
        (tm.transitions.lookup (tm.currentState ++ "," ++ tm.tape.Read) = none ∧
          tm.Step = some { tm with isFinished := true }) ∨
        (∃ toState writeSymbol move,
          tm.transitions.lookup (tm.currentState ++ "," ++ tm.tape.Read)
            = some [toState, writeSymbol, move] ∧
          tm.Step = some { tm with
            tape := if move = "L" then (tm.tape.Write writeSymbol).MoveLeft
                    else if move = "R" then (tm.tape.Write writeSymbol).MoveRight
                    else tm.tape.Write writeSymbol,
            currentState := toState })) := by
  obtain ⟨tm, htm⟩ := TuringMachine.StepN_total n (NewTuringMachine input)
    (NewTuringMachine_entry_length input)
  have hlen : ∀ e ∈ tm.transitions, e.2.length = 3 := by
    rw [TuringMachine.StepN_transitions n _ tm htm]
    exact NewTuringMachine_entry_length input
  have hvalid := TuringMachine.StepN_valid n _ tm (NewTuringMachine_valid input) htm
  refine ⟨tm, htm, hlen, hvalid, ?_, fun hfin => TuringMachine.Step_cases tm hfin hlen⟩
  have hw := Tape.Write_valid tm.tape ""
  unfold Tape.Valid Tape.Write at hw
  simpa using hw

/-- Counterexample for C18: the machine of `010101010001110` (one entry
`q1,0 -> q1,0,X` on tape `0`) is never finished. -/
theorem looping_machine_never_halts :
    ¬ ∃ n tm, TuringMachine.StepN n (NewTuringMachine "010101010001110") = some tm ∧
      tm.isFinished = true := by
  have hstep : (NewTuringMachine "010101010001110").Step
      = some (NewTuringMachine "010101010001110") := by decide
  have hall : ∀ n, TuringMachine.StepN n (NewTuringMachine "010101010001110")
      = some (NewTuringMachine "010101010001110") := by
    intro n
    induction n with
    | zero => rfl
    | succ n ih => simp only [TuringMachine.StepN, hstep, Option.some_bind, ih]
  rintro ⟨n, tm, h1, h2⟩
  rw [hall n] at h1
  have : tm = NewTuringMachine "010101010001110" := (Option.some.inj h1).symm
  subst this
  exact absurd h2 (by decide)

/-- C18, amended: for every input string `NewTuringMachine` constructs a machine
and every number of `Step` calls on it returns a machine; the machine halts
(finished after some number of calls) exactly when some configuration it
reaches has no table entry for `(currentState, tape.Read())`. -/
theorem halts_iff_transition_missing (input : String) :
    (∀ n, ∃ tm, TuringMachine.StepN n (NewTuringMachine input) = some tm) ∧
    ((∃ n tm, TuringMachine.StepN n (NewTuringMachine input) = some tm ∧
        tm.isFinished = true) ↔
      (∃ k tm, TuringMachine.StepN k (NewTuringMachine input) = some tm ∧
        tm.isFinished = false ∧
        tm.transitions.lookup (tm.currentState ++ "," ++ tm.tape.Read) = none)) := by
  refine ⟨fun n => TuringMachine.StepN_total n _ (NewTuringMachine_entry_length input), ?_, ?_⟩
  · rintro ⟨n, tm, h1, h2⟩
    exact TuringMachine.StepN_finished_cause n _ tm h1 rfl h2
  · rintro ⟨k, tm, h1, h2, h3⟩
    refine ⟨k + 1, { tm with isFinished := true }, ?_, rfl⟩
    have hs : tm.Step = some { tm with isFinished := true } := by
      unfold TuringMachine.Step
      simp [h2, h3]
    have := TuringMachine.StepN_add k 1 (NewTuringMachine input)
    rw [this, h1]
    simp [TuringMachine.StepN, hs]

/-- C20: the reachable-state invariant. After any number of `Step` calls on
`NewTuringMachine(input)` the current state is `q1` or the toState (component
0) of some entry of the table; in particular `IsAccepting` can be true only if
the table has an entry whose toState is `q2`. -/
theorem reachable_state_invariant (input : String) (n : Nat) (tm : TuringMachine)
    (h : TuringMachine.StepN n (NewTuringMachine input) = some tm) :
    (tm.currentState = "q1" ∨
      ∃ e ∈ (NewTuringMachine input).transitions, e.2[0]? = some tm.currentState) ∧
    (tm.IsAccepting = true →
      ∃ e ∈ (NewTuringMachine input).transitions, e.2[0]? = some "q2") := by
  have hinv := TuringMachine.StepN_state n _ tm h
  refine ⟨hinv, ?_⟩
  intro hacc
  have hq2 : tm.currentState = "q2" := by
    simpa [TuringMachine.IsAccepting] using hacc
  rcases hinv with h1 | h1
  · rw [hq2] at h1
    have : (NewTuringMachine input).currentState = "q1" := rfl
    rw [this] at h1
    exact absurd h1 (by decide)
  · rw [hq2] at h1
    exact h1

/-- Witness for C20: the default machine after 9 steps is in `q2`, the toState
of its entry for `q3,0`. -/
theorem reachable_state_invariant_witness :
    ∃ e ∈ (NewTuringMachine defaultSequence).transitions, e.2[0]? = some "q2" :=
  (reachable_state_invariant defaultSequence 9
    { tape := { content := ["1", "1", "1", "1", "0", "1", "_"], headPosition := 4 },
      transitions := (NewTuringMachine defaultSequence).transitions,
      currentState := "q2", isFinished := true } (by rfl)).2 (by decide)

/-! ## The fields of a valid record -/

theorem splitLoop_piece_no_sep (sep : List Char) (hsep : sep ≠ []) (k : Nat) (s : List Char)
    (hk : s.length ≤ k) : ∀ p ∈ splitLoop sep k s, ∀ a b : List Char, p ≠ a ++ sep ++ b := by
  have hpos : 0 < sep.length := List.length_pos.mpr hsep
  induction k generalizing s with
  | zero =>
    intro p hp a b e
    have hs : s = [] := List.length_eq_zero.mp (by omega)
    subst hs
    simp only [splitLoop, List.mem_singleton] at hp
    subst hp
    have := congrArg List.length e
    simp at this
    omega
  | succ k ih =>
    intro p hp a b e
    unfold splitLoop at hp
    cases hc : cutFirst sep s with
    | none =>
      simp only [hc, List.mem_singleton] at hp
      subst hp
      exact cutFirst_none sep p hc a b e
    | some q =>
      obtain ⟨a0, b0⟩ := q
      obtain ⟨e0, hmin⟩ := cutFirst_some sep s a0 b0 hc
      simp only [hc, List.mem_cons] at hp
      rcases hp with hp | hp
      · subst hp
        have := hmin a (b ++ sep ++ b0) (by rw [e0, e]; simp)
        have hl := congrArg List.length e
        simp at hl
        omega
      · have hl := congrArg List.length e0
        simp at hl
        exact ih b0 (by omega) p hp a b e

/-- No record produced by `strings.Split(programPart, "11")` contains `11`. -/
theorem Split_piece_no_sep (s r : String) (hr : r ∈ Split s "11") (a b : String) :
    r ≠ a ++ "11" ++ b := by
  unfold Split at hr
  rw [if_neg (by decide)] at hr
  obtain ⟨p, hp, rfl⟩ := List.mem_map.mp hr
  intro e
  have hd := congrArg String.data e
  simp only [String.data_append] at hd
  exact splitLoop_piece_no_sep "11".data (by decide) _ _ (le_refl _) p hp a.data b.data hd

theorem exists_first_occurrence (x : Char) (s : List Char) (h : 0 < s.count x) :
    ∃ a b, s = a ++ x :: b ∧ x ∉ a ∧ b.count x + 1 = s.count x := by
  cases hc : cutFirst [x] s with
  | none =>
    have := cutFirst_single_none x s hc
    rw [List.count_eq_zero_of_not_mem this] at h
    exact absurd h (by decide)
  | some q =>
    obtain ⟨a, b⟩ := q
    obtain ⟨e, hxa⟩ := cutFirst_single_some x s a b hc
    refine ⟨a, b, e, hxa, ?_⟩
    rw [e, List.count_append, List.count_cons_self, List.count_eq_zero_of_not_mem hxa]
    omega

theorem exists_five_fields (r : String) (h : 4 ≤ r.data.count '1') :
    ∃ f1 f2 f3 f4 f5 : String,
      r = f1 ++ "1" ++ f2 ++ "1" ++ f3 ++ "1" ++ f4 ++ "1" ++ f5 ∧
      '1' ∉ f1.data ∧ '1' ∉ f2.data ∧ '1' ∉ f3.data ∧ '1' ∉ f4.data := by
  obtain ⟨a1, b1, e1, n1, c1⟩ := exists_first_occurrence '1' r.data (by omega)
  obtain ⟨a2, b2, e2, n2, c2⟩ := exists_first_occurrence '1' b1 (by omega)
  obtain ⟨a3, b3, e3, n3, c3⟩ := exists_first_occurrence '1' b2 (by omega)
  obtain ⟨a4, b4, e4, n4, _⟩ := exists_first_occurrence '1' b3 (by omega)
  refine ⟨String.mk a1, String.mk a2, String.mk a3, String.mk a4, String.mk b4, ?_,
    n1, n2, n3, n4⟩
  apply String.ext
  simp only [String.data_append]
  rw [e1, e2, e3, e4]
  simp

theorem middle_fields_nonempty (f1 f2 f3 f4 f5 : String)
    (hno : ∀ a b : String,
      f1 ++ "1" ++ f2 ++ "1" ++ f3 ++ "1" ++ f4 ++ "1" ++ f5 ≠ a ++ "11" ++ b) :
    f2 ≠ "" ∧ f3 ≠ "" ∧ f4 ≠ "" := by
  refine ⟨?_, ?_, ?_⟩
  · intro e
    apply hno f1 (f3 ++ "1" ++ f4 ++ "1" ++ f5)
    apply String.ext
    simp [String.data_append, e]
  · intro e
    apply hno (f1 ++ "1" ++ f2) (f4 ++ "1" ++ f5)
    apply String.ext
    simp [String.data_append, e]
  · intro e
    apply hno (f1 ++ "1" ++ f2 ++ "1" ++ f3) f5
    apply String.ext
    simp [String.data_append, e]

/-- The anatomy of an accepted record: five fields, the first four free of `1`,
the three middle ones not empty. -/
theorem valid_record_fields (s r : String) (hr : r ∈ Split s "11")
    (h5 : (partsOf r).length = 5) :
    ∃ f1 f2 f3 f4 f5 : String, partsOf r = [f1, f2, f3, f4, f5] ∧
      '1' ∉ f1.data ∧ '1' ∉ f2.data ∧ '1' ∉ f3.data ∧ '1' ∉ f4.data ∧
      f2 ≠ "" ∧ f3 ≠ "" ∧ f4 ≠ "" := by
  obtain ⟨f1, f2, f3, f4, f5, e, n1, n2, n3, n4⟩ :=
    exists_five_fields r ((partsOf_length_eq_five_iff r).mp h5)
  have hno := Split_piece_no_sep s r hr
  rw [e] at hno
  obtain ⟨m2, m3, m4⟩ := middle_fields_nonempty f1 f2 f3 f4 f5 hno
  refine ⟨f1, f2, f3, f4, f5, ?_, n1, n2, n3, n4, m2, m3, m4⟩
  rw [e]
  exact partsOf_five f1 f2 f3 f4 f5 n1 n2 n3 n4

/-! ## Decimal numerals -/

theorem toDigitsCore_length_ge (fuel n : Nat) (acc : List Char) :
    acc.length ≤ (Nat.toDigitsCore 10 fuel n acc).length := by
  induction fuel generalizing n acc with
  | zero => simp [Nat.toDigitsCore]
  | succ fuel ih =>
    simp only [Nat.toDigitsCore]
    split_ifs
    · simp
    · have := ih (n / 10) (Nat.digitChar (n % 10) :: acc)
      simp at this
      omega

theorem digitChar_ne_zero (d : Nat) (h1 : 1 ≤ d) (hd : d < 10) : Nat.digitChar d ≠ '0' := by
  interval_cases d <;> decide

/-- Only 0 has the decimal numeral `0`. -/
theorem Itoa_ne_zero (n : Nat) (h : 1 ≤ n) : Itoa n ≠ "0" := by
  intro e
  have hd : Nat.toDigitsCore 10 (n + 1) n [] = ['0'] := congrArg String.data e
  simp only [Nat.toDigitsCore] at hd
  by_cases h0 : n / 10 = 0
  · rw [if_pos h0] at hd
    have hlt : n < 10 := by omega
    have hm : n % 10 = n := Nat.mod_eq_of_lt hlt
    rw [hm] at hd
    simp at hd
    exact digitChar_ne_zero n h hlt hd
  · rw [if_neg h0] at hd
    have hfuel : ∃ f, n = f + 1 := ⟨n - 1, by omega⟩
    obtain ⟨f, hf⟩ := hfuel
    have hl := congrArg List.length hd
    rw [hf] at hl
    simp only [Nat.toDigitsCore] at hl
    split_ifs at hl
    · simp at hl
    · have := toDigitsCore_length_ge f ((f + 1) / 10 / 10)
        (Nat.digitChar ((f + 1) / 10 % 10) :: [Nat.digitChar ((f + 1) % 10)])
      simp at hl this
      omega

theorem parseState_ne_q0 (u : String) (h : u ≠ "") : parseState u ≠ "q0" := by
  intro e
  have hpos := String.utf8ByteSize_pos_of_ne u h
  apply Itoa_ne_zero u.utf8ByteSize hpos
  have hd := congrArg String.data e
  unfold parseState at hd
  rw [String.data_append] at hd
  have hq : ("q" : String).data = ['q'] := rfl
  have hq0 : ("q0" : String).data = ['q', '0'] := rfl
  rw [hq, hq0] at hd
  simp at hd
  exact String.ext hd

theorem parseSymbol_cases (u : String) (h : u ≠ "") :
    (parseSymbol u = "0" ∧ u.utf8ByteSize = 1) ∨ (parseSymbol u = "1" ∧ u.utf8ByteSize = 2) ∨
    (parseSymbol u = "_" ∧ u.utf8ByteSize = 3) ∨
    (parseSymbol u = Itoa u.utf8ByteSize ∧ 4 ≤ u.utf8ByteSize) := by
  have hpos := String.utf8ByteSize_pos_of_ne u h
  unfold parseSymbol
  by_cases h1 : u.utf8ByteSize = 1
  · exact Or.inl ⟨by rw [if_pos h1], h1⟩
  · by_cases h2 : u.utf8ByteSize = 2
    · exact Or.inr (Or.inl ⟨by rw [if_neg h1, if_pos h2], h2⟩)
    · by_cases h3 : u.utf8ByteSize = 3
      · exact Or.inr (Or.inr (Or.inl ⟨by rw [if_neg h1, if_neg h2, if_pos h3], h3⟩))
      · exact Or.inr (Or.inr (Or.inr ⟨by rw [if_neg h1, if_neg h2, if_neg h3], by omega⟩))

theorem parseMove_cases (u : String) :
    parseMove u = "L" ∨ parseMove u = "R" ∨ parseMove u = "X" := by
  unfold parseMove
  split_ifs
  · exact Or.inl rfl
  · exact Or.inr (Or.inl rfl)
  · exact Or.inr (Or.inr rfl)

/-! ## Claims about the decoded names and symbols -/

/-- Counterexample for C13: the program `10101010` is one record whose first
field is empty, so its key has the fromState `q0`, which is not `q` followed by
the numeral of a positive integer. -/
theorem state_q0_in_table :
    (NewTuringMachine "10101010").transitions = [("q0,0", ["q1", "0", "L"])] ∧
    ¬ ∃ (N : Nat) (readSymbol : String),
      1 ≤ N ∧ ("q0,0" : String) = "q" ++ Itoa N ++ "," ++ readSymbol := by
  refine ⟨by decide, ?_⟩
  rintro ⟨N, readSymbol, hN, e⟩
  have hd := congrArg String.data e
  simp only [String.data_append] at hd
  have hd2 : ['0'] ++ ',' :: ['0'] = (Itoa N).data ++ ',' :: readSymbol.data := by
    simpa using hd
  have hc : (',' : Char) ∉ ['0'] := by decide
  have := (List.append_cons_inj_of_not_mem hc hc).mp hd2
  exact Itoa_ne_zero N hN (String.ext this.1.symm)

theorem valid_record_decomposition (s r : String) (hr : r ∈ Split s "11")
    (h5 : (partsOf r).length = 5) :
    ∃ f1 f2 f3 f4 f5 : String,
      r = f1 ++ "1" ++ f2 ++ "1" ++ f3 ++ "1" ++ f4 ++ "1" ++ f5 ∧
      partsOf r = [f1, f2, f3, f4, f5] ∧ '1' ∉ f1.data ∧ f3 ≠ "" := by
  obtain ⟨f1, f2, f3, f4, f5, e, n1, n2, n3, n4⟩ :=
    exists_five_fields r ((partsOf_length_eq_five_iff r).mp h5)
  have hno := Split_piece_no_sep s r hr
  rw [e] at hno
  obtain ⟨_, m3, _⟩ := middle_fields_nonempty f1 f2 f3 f4 f5 hno
  refine ⟨f1, f2, f3, f4, f5, e, ?_, n1, m3⟩
  rw [e]
  exact partsOf_five f1 f2 f3 f4 f5 n1 n2 n3 n4

/-- The first field of a record is empty exactly when the record begins with `1`. -/
theorem first_field_empty_iff (f1 f2 f3 f4 f5 : String) (n1 : '1' ∉ f1.data) :
    f1 = "" ↔ ∃ rest : String,
      f1 ++ "1" ++ f2 ++ "1" ++ f3 ++ "1" ++ f4 ++ "1" ++ f5 = "1" ++ rest := by
  constructor
  · intro e
    refine ⟨f2 ++ "1" ++ f3 ++ "1" ++ f4 ++ "1" ++ f5, ?_⟩
    apply String.ext
    simp [String.data_append, e]
  · rintro ⟨rest, e⟩
    have hd := congrArg String.data e
    simp only [String.data_append] at hd
    apply String.ext
    cases hf : f1.data with
    | nil => rfl
    | cons x xs =>
      exfalso
      rw [hf] at hd n1
      simp at hd
      exact n1 (by simp [hd.1])

/-- C13, amended: every entry of the table built by `NewTuringMachine` is the
decoded entry of an accepted record `r` of the program part. Its key is `q` +
decimal `N` + `,` + readSymbol and its toState is `q` + decimal `M`, where
`M ≥ 1` always, `N ≥ 1` when `r` does not begin with `1`, and `N = 0` (the
fromState is `q0`) when `r` begins with `1`. -/
theorem state_names_in_table (input : String) (e : String × List String)
    (he : e ∈ (NewTuringMachine input).transitions) :
    ∃ r ∈ Split (programPart input) "11", ∃ (N M : Nat) (readSymbol writeSymbol move : String),
      r ≠ "" ∧ (partsOf r).length = 5 ∧
      e = (fromStateOf r ++ "," ++ readSymbolOf r, [toStateOf r, writeSymbolOf r, moveOf r]) ∧
      e = ("q" ++ Itoa N ++ "," ++ readSymbol, ["q" ++ Itoa M, writeSymbol, move]) ∧
      fromStateOf r = "q" ++ Itoa N ∧ toStateOf r = "q" ++ Itoa M ∧
      1 ≤ M ∧ ',' ∉ readSymbol.data ∧
      ((∀ rest : String, r ≠ "1" ++ rest) → 1 ≤ N) ∧
      ((∃ rest : String, r = "1" ++ rest) → N = 0 ∧ fromStateOf r = "q0") := by
  obtain ⟨r, hr, hne, h5, e1⟩ := NewTuringMachine_entry input e he
  obtain ⟨f1, f2, f3, f4, f5, er, hp, n1, m3⟩ := valid_record_decomposition _ r hr h5
  have hiff := first_field_empty_iff f1 f2 f3 f4 f5 n1
  rw [← er] at hiff
  have hfrom : fromStateOf r = "q" ++ Itoa f1.utf8ByteSize := by
    simp only [fromStateOf, hp]
    rfl
  have hto : toStateOf r = "q" ++ Itoa f3.utf8ByteSize := by
    simp only [toStateOf, hp]
    rfl
  refine ⟨r, hr, f1.utf8ByteSize, f3.utf8ByteSize, parseSymbol f2, parseSymbol f4,
    parseMove f5, hne, h5, e1, ?_, hfrom, hto, String.utf8ByteSize_pos_of_ne f3 m3,
    parseSymbol_no_comma f2, ?_, ?_⟩
  · rw [e1]
    simp only [keyOf, fromStateOf, readSymbolOf, toStateOf, writeSymbolOf, moveOf, hp]
    rfl
  · intro hnot
    apply String.utf8ByteSize_pos_of_ne
    intro hf1
    obtain ⟨rest, hrest⟩ := hiff.mp hf1
    exact hnot rest hrest
  · intro hbegins
    have hf1 : f1 = "" := hiff.mpr hbegins
    rw [hfrom, hf1]
    exact ⟨rfl, rfl⟩

/-- Witness for C13, amended: the entry of the program `0101010100`, whose
record does not begin with `1`. -/
theorem state_names_in_table_witness :
    ∃ r ∈ Split (programPart "0101010100") "11",
      ∃ (N M : Nat) (readSymbol writeSymbol move : String),
      r ≠ "" ∧ (partsOf r).length = 5 ∧
      (("q1,0", ["q1", "0", "R"]) : String × List String)
        = (fromStateOf r ++ "," ++ readSymbolOf r,
           [toStateOf r, writeSymbolOf r, moveOf r]) ∧
      (("q1,0", ["q1", "0", "R"]) : String × List String)
        = ("q" ++ Itoa N ++ "," ++ readSymbol, ["q" ++ Itoa M, writeSymbol, move]) ∧
      fromStateOf r = "q" ++ Itoa N ∧ toStateOf r = "q" ++ Itoa M ∧
      1 ≤ M ∧ ',' ∉ readSymbol.data ∧
      ((∀ rest : String, r ≠ "1" ++ rest) → 1 ≤ N) ∧
      ((∃ rest : String, r = "1" ++ rest) → N = 0 ∧ fromStateOf r = "q0") :=
  state_names_in_table "0101010100" ("q1,0", ["q1", "0", "R"]) (by decide)

/-- C19: in every accepted record (a non-empty `11`-separated piece of the
program part that splits into 5 fields) the fields 2, 3 and 4 are not empty and
contain no `1`. Hence their lengths are at least 1, the toState is not `q0`,
the read and the write symbol are `0`, `1`, `_` or the decimal numeral of an
integer `≥ 4`, and the move is `L`, `R` or `X`; and every entry of the table is
the decoded entry of such a record. -/
theorem accepted_record_fields (input : String) :
    (∀ r ∈ Split (programPart input) "11", r ≠ "" → (partsOf r).length = 5 →
      ∃ f1 f2 f3 f4 f5 : String, partsOf r = [f1, f2, f3, f4, f5] ∧
        (f2 ≠ "" ∧ '1' ∉ f2.data) ∧ (f3 ≠ "" ∧ '1' ∉ f3.data) ∧ (f4 ≠ "" ∧ '1' ∉ f4.data) ∧
        1 ≤ f2.utf8ByteSize ∧ 1 ≤ f3.utf8ByteSize ∧ 1 ≤ f4.utf8ByteSize ∧
        toStateOf r ≠ "q0" ∧
        (readSymbolOf r = "0" ∨ readSymbolOf r = "1" ∨ readSymbolOf r = "_" ∨
          ∃ n : Nat, 4 ≤ n ∧ readSymbolOf r = Itoa n) ∧
        (writeSymbolOf r = "0" ∨ writeSymbolOf r = "1" ∨ writeSymbolOf r = "_" ∨
          ∃ n : Nat, 4 ≤ n ∧ writeSymbolOf r = Itoa n) ∧
        (moveOf r = "L" ∨ moveOf r = "R" ∨ moveOf r = "X")) ∧
    (∀ e ∈ (NewTuringMachine input).transitions,
      ∃ r ∈ Split (programPart input) "11", r ≠ "" ∧ (partsOf r).length = 5 ∧
        e = (fromStateOf r ++ "," ++ readSymbolOf r,
             [toStateOf r, writeSymbolOf r, moveOf r])) := by
  refine ⟨?_, fun e he => NewTuringMachine_entry input e he⟩
  intro r hr _ h5
  obtain ⟨f1, f2, f3, f4, f5, hp, _, n2, n3, n4, m2, m3, m4⟩ :=
    valid_record_fields _ r hr h5
  have hsym : ∀ u : String, u ≠ "" →
      (parseSymbol u = "0" ∨ parseSymbol u = "1" ∨ parseSymbol u = "_" ∨
        ∃ n : Nat, 4 ≤ n ∧ parseSymbol u = Itoa n) := by
    intro u hu
    rcases parseSymbol_cases u hu with h | h | h | h
    · exact Or.inl h.1
    · exact Or.inr (Or.inl h.1)
    · exact Or.inr (Or.inr (Or.inl h.1))
    · exact Or.inr (Or.inr (Or.inr ⟨_, h.2, h.1⟩))
  refine ⟨f1, f2, f3, f4, f5, hp, ⟨m2, n2⟩, ⟨m3, n3⟩, ⟨m4, n4⟩,
    String.utf8ByteSize_pos_of_ne f2 m2, String.utf8ByteSize_pos_of_ne f3 m3,
    String.utf8ByteSize_pos_of_ne f4 m4, ?_, ?_, ?_, ?_⟩
  · simp only [toStateOf, hp]
    exact parseState_ne_q0 f3 m3
  · simp only [readSymbolOf, hp]
    exact hsym f2 m2
  · simp only [writeSymbolOf, hp]
    exact hsym f4 m4
  · exact parseMove_cases _

/-- Witness for C19: the first record of the default sequence. -/
theorem accepted_record_fields_witness :
    ∃ f1 f2 f3 f4 f5 : String, partsOf "0101010100" = [f1, f2, f3, f4, f5] ∧
      (f2 ≠ "" ∧ '1' ∉ f2.data) ∧ (f3 ≠ "" ∧ '1' ∉ f3.data) ∧ (f4 ≠ "" ∧ '1' ∉ f4.data) ∧
      1 ≤ f2.utf8ByteSize ∧ 1 ≤ f3.utf8ByteSize ∧ 1 ≤ f4.utf8ByteSize ∧
      toStateOf "0101010100" ≠ "q0" ∧
      (readSymbolOf "0101010100" = "0" ∨ readSymbolOf "0101010100" = "1" ∨
        readSymbolOf "0101010100" = "_" ∨
        ∃ n : Nat, 4 ≤ n ∧ readSymbolOf "0101010100" = Itoa n) ∧
      (writeSymbolOf "0101010100" = "0" ∨ writeSymbolOf "0101010100" = "1" ∨
        writeSymbolOf "0101010100" = "_" ∨
        ∃ n : Nat, 4 ≤ n ∧ writeSymbolOf "0101010100" = Itoa n) ∧
      (moveOf "0101010100" = "L" ∨ moveOf "0101010100" = "R" ∨ moveOf "0101010100" = "X") :=
  (accepted_record_fields defaultSequence).1 "0101010100" (by decide) (by decide) (by decide)

/-! ## Writing at a negative head position -/

theorem Tape.Write_of_negative (t : Tape) (s : String) (h : t.headPosition < 0) :
    t.Write s = { content := s :: t.content, headPosition := 0 } := by
  unfold Tape.Write
  rw [Tape.growRight_eq]
  have e : (t.headPosition + 1 - t.content.length).toNat = 0 := by omega
  simp [Tape.growLeft, h, e]

/-- Counterexample for C14: on the tape with content `a` and head position
`-2`, `Write(x)` gives content `x, a` with the head at 0. The old cell 0 is one
cell right of the head, not two: index `0 - (-2)` does not hold `a`, and index
1, strictly between the head and that index, is not blank. -/
theorem write_at_minus_two_prepends_one_cell :
    Tape.Write { content := ["a"], headPosition := -2 } "x"
      = { content := ["x", "a"], headPosition := 0 } ∧
    (Tape.Write { content := ["a"], headPosition := -2 } "x").cellAt (0 - (-2)) ≠ "a" ∧
    (Tape.Write { content := ["a"], headPosition := -2 } "x").cellAt 1 ≠ "_" := by
  refine ⟨by decide, by decide, by decide⟩

/-- C14, amended: on every tape with a negative head position and for every
symbol `s`, after `Write(s)` the head position is 0, cell 0 holds `s`, and the
tape has been extended leftward by exactly one cell, so that every previously
stored symbol `c[i]` is now at index `i + 1`. For head position `-1` that is
index `i - h`: the symbol keeps its distance from the head, and no cell lies
strictly between the head and the old cell 0. -/
theorem write_at_negative_head (t : Tape) (s : String) (h : t.headPosition < 0) :
    (t.Write s).headPosition = 0 ∧
    (t.Write s).content = s :: t.content ∧
    (t.Write s).content.length = t.content.length + 1 ∧
    (t.Write s).cellAt 0 = s ∧
    (∀ i : Int, 0 ≤ i → (t.Write s).cellAt (i + 1) = t.cellAt i) ∧
    (t.headPosition = -1 →
      ∀ i : Int, 0 ≤ i → (t.Write s).cellAt (i - t.headPosition) = t.cellAt i) := by
  have hw := Tape.Write_of_negative t s h
  have hshift : ∀ i : Int, 0 ≤ i → (t.Write s).cellAt (i + 1) = t.cellAt i := by
    intro i hi
    rw [hw, Tape.cellAt_eq, Tape.cellAt_eq]
    obtain ⟨m, rfl⟩ : ∃ m : Nat, i = m := ⟨i.toNat, by omega⟩
    have e1 : ¬ ((m : Int) + 1 < 0) := by omega
    have e2 : ¬ ((m : Int) < 0) := by omega
    have e3 : ((m : Int) + 1).toNat = m + 1 := by omega
    have e4 : ((m : Int)).toNat = m := by omega
    simp only [e1, e2, e3, e4, if_false, List.getElem?_cons_succ]
  refine ⟨by rw [hw], by rw [hw], by rw [hw]; rfl, ?_, hshift, ?_⟩
  · rw [hw]
    rfl
  · intro h1 i hi
    rw [h1]
    have := hshift i hi
    rw [show i - -1 = i + 1 by ring]
    exact this

/-- Witness for C14, amended: content `a`, head position `-1`, symbol `x`. -/
theorem write_at_negative_head_witness :
    (Tape.Write { content := ["a"], headPosition := -1 } "x").headPosition = 0 ∧
    (Tape.Write { content := ["a"], headPosition := -1 } "x").content = ["x", "a"] ∧
    (Tape.Write { content := ["a"], headPosition := -1 } "x").cellAt 0 = "x" ∧
    (Tape.Write { content := ["a"], headPosition := -1 } "x").cellAt (0 - (-1)) = "a" :=
  have h := write_at_negative_head { content := ["a"], headPosition := -1 } "x" (by decide)
  ⟨h.1, h.2.1, h.2.2.2.1, h.2.2.2.2.2 rfl 0 (le_refl 0)⟩

end TuringGoedel
